import Mathlib

/-!
Verification development for the nestjs-trpc repository.

The embedding models, over `List Char` texts:
  - the app-router source file held by the TRPC generator (`RouterFile`),
  - the import deduplication core shared by the two `injectFilesContent`
    implementations in `lib/generators/trpc.generator.ts`,
  - the regex-based import extraction, removal and cleanup passes of the
    regex implementation of `injectFilesContent`,
  - the AST-based implementation of `injectFilesContent`,
  - the path utilities `findTsConfigFile` and `resolvePathWithAliases` of
    `lib/utils/path-resolution.util.ts` together with the parts of the Node
    `path` module they use (posix flavour),
  - `TRPCGenerator.generateSchemaFile` / `generateHelpersFile`, with the
    collaborator services (factories, serializers, file system) abstracted
    as parameters, and
  - `AppRouterHost`.
-/

set_option autoImplicit false

namespace NT

/-- Texts are lists of characters; string literals are converted with
`String.toList` at the boundary. -/
abbrev Text := List Char

/-- Left brace character, written via its code point. -/
def lbraceChar : Char := Char.ofNat 123

/-- Right brace character, written via its code point. -/
def rbraceChar : Char := Char.ofNat 125

/-- Single quote character. -/
def squoteChar : Char := Char.ofNat 39

/-- Double quote character. -/
def dquoteChar : Char := Char.ofNat 34

/-- The characters matched by the JavaScript regex class backslash-s
(ASCII part; the unicode spaces are not modelled). -/
def jsWs (c : Char) : Bool :=
  c == ' ' || c == '\t' || c == '\n' || c == '\r' ||
  c == Char.ofNat 11 || c == Char.ofNat 12

/-- A character is one of the two quote characters of the regex class. -/
def isQuote (c : Char) : Bool := c == squoteChar || c == dquoteChar

/-- JavaScript `String.prototype.trim` on a text (whitespace stripped from
both ends). -/
def trimText (s : Text) : Text :=
  ((s.dropWhile jsWs).reverse.dropWhile jsWs).reverse

/-- Split a text at every occurrence of the given character, JavaScript
`String.prototype.split` with a one-character separator: the result always
has one more part than there are separators, so the empty text yields one
empty part. -/
def splitOnChar (sep : Char) : Text → List Text
  | [] => [[]]
  | c :: rest =>
    let parts := splitOnChar sep rest
    if c = sep then [] :: parts
    else
      match parts with
      | [] => [[c]]
      | p :: ps => (c :: p) :: ps

/-- The named-import list processing applied by both implementations:
`namedImportsText.split(',').map(imp => imp.trim()).filter(imp => imp !== '')`. -/
def splitTrimFilter (namedImportsText : Text) : List Text :=
  ((splitOnChar ',' namedImportsText).map trimText).filter (fun t => t ≠ [])

/-! ## The app-router source file and the shared import deduplication core -/

/-- The parts of the ts-morph `SourceFile` for the generated app router that
the generator manipulates: the import declarations (module specifier with the
named imports of the declaration, in file order) and the remaining statements
(raw texts passed to `addStatements`, in file order). -/
structure RouterFile where
  imports : List (Text × List Text)
  statements : List Text
deriving DecidableEq

/-- The app-router file with no imports and no statements. -/
def emptyRouterFile : RouterFile := ⟨[], []⟩

/-- The key stored in the `existingImports` set for a named import:
backtick-free rendering of the template literal moduleSpecifier colon name. -/
def mkKey (moduleSpecifier name : Text) : Text :=
  moduleSpecifier ++ ':' :: name

/-- JavaScript `Set.prototype.add`: insertion-ordered, ignoring elements
already present. -/
def insertKey (ex : List Text) (k : Text) : List Text :=
  if k ∈ ex then ex else ex ++ [k]

/-- The seeding pass over `appRouterSourceFile.getImportDeclarations()`: for
every declaration the module specifier is added to the set, then the key of
every named import of the declaration. -/
def seedExisting (imports : List (Text × List Text)) : List Text :=
  imports.foldl
    (fun acc p => p.2.foldl (fun a n => insertKey a (mkKey p.1 n)) (insertKey acc p.1))
    []

/-- ts-morph `existingImport.addNamedImport(namedImport)` on the first
declaration whose module specifier matches (the declaration found by
`getImportDeclaration`); when no declaration matches this is a no-op,
mirroring the `if (existingImport)` guard. -/
def addNamedToFirst : List (Text × List Text) → Text → Text → List (Text × List Text)
  | [], _, _ => []
  | (m, ns) :: rest, md, n =>
    if m = md then (m, ns ++ [n]) :: rest
    else (m, ns) :: addNamedToFirst rest md n

/-- One iteration of the `namedImports.forEach((namedImport) => ...)` body
shared verbatim by the regex and the AST implementation: skip the pair when
its key is in `existingImports`; otherwise create a new declaration when the
module specifier is unknown, or append to the existing declaration, and
record the key. -/
def processNamedImport (st : RouterFile × List Text) (moduleSpecifier name : Text) :
    RouterFile × List Text :=
  let (rf, ex) := st
  let key := mkKey moduleSpecifier name
  if key ∈ ex then st
  else if moduleSpecifier ∈ ex then
    ({ rf with imports := addNamedToFirst rf.imports moduleSpecifier name },
     insertKey ex key)
  else
    ({ rf with imports := rf.imports ++ [(moduleSpecifier, [name])] },
     insertKey (insertKey ex moduleSpecifier) key)

/-- Process a list of (module specifier, named import) pairs in order. -/
def processPairs (pairs : List (Text × Text)) (st : RouterFile × List Text) :
    RouterFile × List Text :=
  pairs.foldl (fun s p => processNamedImport s p.1 p.2) st

/-- All (module specifier, named import) pairs present in the file. -/
def pairsOf (rf : RouterFile) : List (Text × Text) :=
  rf.imports.flatMap (fun p => p.2.map (fun n => (p.1, n)))

/-- Well-formedness of the import section: no two declarations share a module
specifier and no declaration repeats a named import. -/
def wfRouterFile (rf : RouterFile) : Prop :=
  (rf.imports.map Prod.fst).Nodup ∧ ∀ p ∈ rf.imports, p.2.Nodup

instance (rf : RouterFile) : Decidable (wfRouterFile rf) := by
  unfold wfRouterFile; infer_instance

/-! ## The regex implementation of `injectFilesContent`

The import statement regex of the source is
`import\s+{([^}]*)}\s+from\s+['"]([^'"]+)['"];?\s*` with the global flag.
For this particular pattern the JavaScript backtracking search agrees with
greedy one-pass matching: every bounded repetition is over a character class
that excludes the character required next, so no backtracking point can
succeed once the greedy continuation fails. -/

/-- Match a literal at the head of the text, returning the rest. -/
def dropLit (lit s : Text) : Option Text :=
  if lit.isPrefixOf s then some (s.drop lit.length) else none

/-- Greedy match of backslash-s-plus at the head of the text. -/
def wsPlus : Text → Option Text
  | [] => none
  | c :: rest => if jsWs c then some (rest.dropWhile jsWs) else none

/-- Attempt to match the import regex at the start of the text. On success
returns the matched text, the raw named-imports group, the module specifier
group, and the rest of the text after the match. -/
def matchImportAt (s : Text) : Option (Text × Text × Text × Text) :=
  match dropLit ("import".toList) s with
  | none => none
  | some s1 =>
  match wsPlus s1 with
  | none => none
  | some s2 =>
  match s2 with
  | [] => none
  | b :: s3 =>
  if b = lbraceChar then
    let nt := s3.takeWhile (fun c => c ≠ rbraceChar)
    match s3.drop nt.length with
    | [] => none
    | b2 :: s4 =>
    if b2 = rbraceChar then
      match wsPlus s4 with
      | none => none
      | some s5 =>
      match dropLit ("from".toList) s5 with
      | none => none
      | some s6 =>
      match wsPlus s6 with
      | none => none
      | some s7 =>
      match s7 with
      | [] => none
      | q :: s8 =>
      if isQuote q then
        let md := s8.takeWhile (fun c => ¬ isQuote c)
        if md = [] then none
        else
          match s8.drop md.length with
          | [] => none
          | q2 :: s9 =>
          if isQuote q2 then
            let s10 := match s9 with
              | c :: t => if c = ';' then t else s9
              | [] => s9
            let rest := s10.dropWhile jsWs
            some (s.take (s.length - rest.length), nt, md, rest)
          else none
      else none
    else none
  else none

/-- The `importRegex.exec` loop: scan left to right; on a match, record it
and resume after the matched text, otherwise advance one character.  Each
step consumes at least one character, so fuel `s.length` is enough. -/
def scanGo : Nat → Text → List (Text × Text × Text)
  | 0, _ => []
  | _ + 1, [] => []
  | fuel + 1, c :: rest =>
    match matchImportAt (c :: rest) with
    | some (matched, nt, md, rem) => (matched, nt, md) :: scanGo fuel rem
    | none => scanGo fuel rest

/-- All matches of the import regex over the file content, in order:
matched text, named-imports group, module specifier group. -/
def scanImports (s : Text) : List (Text × Text × Text) :=
  scanGo s.length s

/-- JavaScript `String.prototype.replace` with a plain string pattern and an
empty replacement: remove the first occurrence, leave the text unchanged
when there is none. -/
def replaceFirst : Text → Text → Text
  | [], _ => []
  | c :: r, target =>
    if target.isPrefixOf (c :: r) then (c :: r).drop target.length
    else c :: replaceFirst r target

/-- Insertion-ordered deduplication, the contents of a JavaScript `Set`
built by successive `add` calls. -/
def dedupKeep (l : List Text) : List Text :=
  l.foldl (fun acc t => if t ∈ acc then acc else acc ++ [t]) []

/-- Global replacement of the pattern semicolon backslash-s-star semicolon
by a single semicolon (the first cleanup pass).  On a match the scan resumes
after the matched region. -/
def cleanupDoubleSemisGo : Nat → Text → Text
  | 0, s => s
  | _ + 1, [] => []
  | fuel + 1, c :: rest =>
    if c = ';' then
      let w := rest.takeWhile jsWs
      match rest.drop w.length with
      | d :: r2 => if d = ';' then ';' :: cleanupDoubleSemisGo fuel r2
                   else c :: cleanupDoubleSemisGo fuel rest
      | [] => c :: cleanupDoubleSemisGo fuel rest
    else c :: cleanupDoubleSemisGo fuel rest

/-- First cleanup pass of the regex implementation. -/
def cleanupDoubleSemis (s : Text) : Text := cleanupDoubleSemisGo s.length s

/-- Global multiline replacement of caret backslash-s-star semicolon by the
empty text (the second cleanup pass): at the start of the input or right
after a newline, a whitespace run followed by a semicolon is deleted. -/
def cleanupLineLeadingSemisGo : Nat → Bool → Text → Text
  | 0, _, s => s
  | _ + 1, _, [] => []
  | fuel + 1, atLineStart, c :: rest =>
    let w := (c :: rest).takeWhile jsWs
    match atLineStart, (c :: rest).drop w.length with
    | true, d :: r2 =>
      if d = ';' then cleanupLineLeadingSemisGo fuel false r2
      else c :: cleanupLineLeadingSemisGo fuel (c = '\n') rest
    | _, _ => c :: cleanupLineLeadingSemisGo fuel (c = '\n') rest

/-- Second cleanup pass of the regex implementation. -/
def cleanupLineLeadingSemis (s : Text) : Text :=
  cleanupLineLeadingSemisGo s.length true s

/-- Global replacement of backslash-s-star semicolon backslash-s-star
newline by a newline (the third cleanup pass).  A match at a position needs
the first non-whitespace character from there to be a semicolon and the
whitespace run after that semicolon to contain a newline; backtracking makes
the second repetition stop right before the last newline of that run. -/
def cleanupLineTrailingSemisGo : Nat → Text → Text
  | 0, s => s
  | _ + 1, [] => []
  | fuel + 1, c :: rest =>
    let w1 := (c :: rest).takeWhile jsWs
    match (c :: rest).drop w1.length with
    | d :: r1 =>
      if d = ';' then
        let w2 := r1.takeWhile jsWs
        let tail := (w2.reverse.takeWhile (fun x => x ≠ '\n')).reverse
        if tail.length = w2.length then c :: cleanupLineTrailingSemisGo fuel rest
        else '\n' :: cleanupLineTrailingSemisGo fuel (tail ++ r1.drop w2.length)
      else c :: cleanupLineTrailingSemisGo fuel rest
    | [] => c :: cleanupLineTrailingSemisGo fuel rest

/-- Third cleanup pass of the regex implementation. -/
def cleanupLineTrailingSemis (s : Text) : Text :=
  cleanupLineTrailingSemisGo s.length s

/-- The three cleanup passes in source order, followed by `trim`. -/
def cleanedNonImportContent (nonImportContent : Text) : Text :=
  trimText (cleanupLineTrailingSemis (cleanupLineLeadingSemis
    (cleanupDoubleSemis nonImportContent)))

/-- The (module specifier, named import) pairs produced by the regex scan of
a file content, in processing order. -/
def regexExtractedPairs (fileContent : Text) : List (Text × Text) :=
  (scanImports fileContent).flatMap
    (fun m => (splitTrimFilter m.2.1).map (fun n => (m.2.2, n)))

/-- The file content after every element of the `processedImports` set has
been removed once (`nonImportContent` right before the cleanup passes). -/
def nonImportRemainder (fileContent : Text) : Text :=
  (dedupKeep ((scanImports fileContent).map (fun m => m.1))).foldl
    replaceFirst fileContent

/-- The `cleanedContent` of the source: import removal followed by the three
cleanup passes and `trim`. -/
def spliceRemainder (fileContent : Text) : Text :=
  cleanedNonImportContent (nonImportRemainder fileContent)

/-- The regex implementation of one file injection (the body of the
per-file loop of `injectFilesContent`, lines 193 to 274 of the regex
version): seed `existingImports` from the app-router file, process every
named import of every regex match through the shared deduplication core,
remove each matched text once from the content, run the cleanup passes, and
append the trimmed remainder as statements when it is non-empty.  The
source interleaves pair processing with the `exec` loop; since scanning
reads only the file content, collecting all matches first is equivalent. -/
def regexInjectFile (fileContent : Text) (rf : RouterFile) : RouterFile :=
  let st := processPairs (regexExtractedPairs fileContent)
    (rf, seedExisting rf.imports)
  let cleaned := spliceRemainder fileContent
  if cleaned = [] then st.1
  else { st.1 with statements := st.1.statements ++ [cleaned] }

/-! ## The AST implementation of `injectFilesContent` -/

/-- A statement of the file to inject, as seen through ts-morph: its kind
name (whether `getKindName()` is the import declaration kind) and its text. -/
structure Stmt where
  isImport : Bool
  text : Text
deriving DecidableEq

/-- The full text of a parsed source file: every statement followed by a
newline. -/
def renderFile (stmts : List Stmt) : Text :=
  stmts.flatMap (fun s => s.text ++ ['\n'])

/-- Attempt to match `from\s+['"]([^'"]+)['"]` at the start of the text,
returning the captured module specifier. -/
def matchFromAt (s : Text) : Option Text :=
  match dropLit ("from".toList) s with
  | none => none
  | some s1 =>
  match wsPlus s1 with
  | none => none
  | some s2 =>
  match s2 with
  | [] => none
  | q :: s3 =>
  if isQuote q then
    let md := s3.takeWhile (fun c => ¬ isQuote c)
    if md = [] then none
    else
      match s3.drop md.length with
      | q2 :: _ => if isQuote q2 then some md else none
      | [] => none
  else none

/-- First match of `from\s+['"]([^'"]+)['"]` anywhere in the text, the
module-specifier extraction of the AST implementation. -/
def extractFromGo : Nat → Text → Option Text
  | 0, _ => none
  | _ + 1, [] => none
  | fuel + 1, c :: rest =>
    match matchFromAt (c :: rest) with
    | some md => some md
    | none => extractFromGo fuel rest

/-- Module specifier of an import declaration text, `''` on no match
(`match(...)?.[1] || ''`). -/
def extractFrom (s : Text) : Option Text := extractFromGo s.length s

/-- Attempt to match `{([^}]*)}` at the start of the text. -/
def matchBracesAt (s : Text) : Option Text :=
  match s with
  | [] => none
  | b :: s1 =>
  if b = lbraceChar then
    let nt := s1.takeWhile (fun c => c ≠ rbraceChar)
    match s1.drop nt.length with
    | b2 :: _ => if b2 = rbraceChar then some nt else none
    | [] => none
  else none

/-- First match of `{([^}]*)}` anywhere in the text, the named-imports
extraction of the AST implementation. -/
def extractBracesGo : Nat → Text → Option Text
  | 0, _ => none
  | _ + 1, [] => none
  | fuel + 1, c :: rest =>
    match matchBracesAt (c :: rest) with
    | some nt => some nt
    | none => extractBracesGo fuel rest

/-- Named-imports group of an import declaration text, absent on no match. -/
def extractBraces (s : Text) : Option Text := extractBracesGo s.length s

/-- The AST implementation of one file injection (lines 575 to 646 of the
AST version): seed `existingImports` once, then walk the parsed statements;
an import declaration contributes its regex-extracted module specifier and
named imports to the shared deduplication core, any other statement text is
appended to the app-router file directly. -/
def astInjectFile (stmts : List Stmt) (rf : RouterFile) : RouterFile :=
  (stmts.foldl
    (fun (st : RouterFile × List Text) stmt =>
      if stmt.isImport then
        let md := (extractFrom stmt.text).getD []
        let nt := (extractBraces stmt.text).getD []
        processPairs ((splitTrimFilter nt).map (fun n => (md, n))) st
      else
        ({ st.1 with statements := st.1.statements ++ [stmt.text] }, st.2))
    (rf, seedExisting rf.imports)).1

/-! ## Node `path` (posix flavour) and `path-resolution.util.ts` -/

/-- A path is absolute when it starts with a slash (`path.isAbsolute`,
posix). -/
def isAbsolutePath (p : Text) : Bool :=
  match p with
  | c :: _ => c = '/'
  | [] => false

/-- Node posix `path.dirname`, following the reference implementation: scan
from the end, skip trailing slashes, cut at the separating slash; index 0 is
never examined, a rootless result is `.`, a rooted one degenerates to `/`
(or `//` when the cut lands at index 1 of a rooted path). -/
def dirname (p : Text) : Text :=
  if p = [] then ['.']
  else
    let hasRoot := p.head? = some '/'
    let q := p.reverse.take (p.length - 1)
    let q2 := (q.dropWhile (fun c => c = '/')).dropWhile (fun c => c ≠ '/')
    if q2 = [] then (if hasRoot then ['/'] else ['.'])
    else if hasRoot ∧ q2.length = 1 then ['/', '/']
    else p.take q2.length

/-- Node posix `path.parse(p).root`: a slash for rooted paths, empty
otherwise. -/
def parseRoot (p : Text) : Text :=
  if isAbsolutePath p then ['/'] else []

/-- Node `path.join(dir, file)` for the shapes arising here: a directory
produced by `dirname` joined with a file name.  The general normalisation
of `path.join` (collapsing duplicate slashes, resolving dot segments) is
not modelled beyond the cases produced by `dirname`: an empty or dot
directory yields the bare file name, a directory ending in a slash is
concatenated directly, anything else gets a separating slash. -/
def pjoin (dir file : Text) : Text :=
  if dir = [] then file
  else if dir = ['.'] then file
  else if dir.getLast? = some '/' then dir ++ file
  else dir ++ '/' :: file

/-- An alias pattern or target with a trailing `/*` has it replaced by `/`
(`replace(/\/\*$/, '/')`), which amounts to dropping the trailing star. -/
def stripStar (t : Text) : Text :=
  if t.reverse.take 2 = ['*', '/'] then t.dropLast else t

/-- The alias loop of `resolvePathWithAliases`: first entry of the alias
map, in order, whose targets are non-empty and whose converted pattern is a
prefix of the file path; on a hit the converted first target is prepended
to the remainder of the file path and resolved against the base path.  The
Node `path.resolve` function is passed in as `resolve`. -/
def resolveAliasLoop (resolve : Text → Text → Text) (filePath basePath : Text) :
    List (Text × List Text) → Option Text
  | [] => none
  | (pat, targets) :: rest =>
    match targets with
    | [] => resolveAliasLoop resolve filePath basePath rest
    | t0 :: _ =>
      let ap := stripStar pat
      if ap.isPrefixOf filePath then
        some (resolve basePath (stripStar t0 ++ filePath.drop ap.length))
      else resolveAliasLoop resolve filePath basePath rest

/-- `resolvePathWithAliases` of `lib/utils/path-resolution.util.ts`: an
absolute path is returned unchanged; otherwise the alias loop runs; a path
matched by no alias is resolved against the base path, with the source
distinguishing explicitly relative paths (`./`, `../`) from the remaining
ones only in its logging.  Nothing in the pure model can throw, so the
`catch` branch returning null is unreachable and the result is total. -/
def resolvePathWithAliases (resolve : Text → Text → Text) (filePath : Text)
    (pathAliases : List (Text × List Text)) (basePath : Text) : Text :=
  if isAbsolutePath filePath then filePath
  else
    match resolveAliasLoop resolve filePath basePath pathAliases with
    | some r => r
    | none =>
      if ("./".toList).isPrefixOf filePath ∨ ("../".toList).isPrefixOf filePath then
        resolve basePath filePath
      else resolve basePath filePath

/-- The file name looked up by `findTsConfigFile`. -/
def tsconfigName : Text := "tsconfig.json".toList

/-- The `while (currentDir !== root)` loop of `findTsConfigFile`, with fuel:
`some none` is the null return at the root, `some (some p)` is a found
tsconfig path, `none` means the fuel ran out while the loop was still
running. -/
def findTsLoop (fsHas : Text → Bool) (root : Text) : Nat → Text → Option (Option Text)
  | 0, _ => none
  | fuel + 1, dir =>
    if dir = root then some none
    else if fsHas (pjoin dir tsconfigName) then some (some (pjoin dir tsconfigName))
    else findTsLoop fsHas root fuel (dirname dir)

/-- `findTsConfigFile` of `lib/utils/path-resolution.util.ts`: walk up from
the directory of the start path until the root computed from that directory
is reached.  `fsHas` stands for `fs.existsSync`.  The source has no fuel;
the fuel argument makes the possibly non-terminating walk observable. -/
def findTsConfigFile (fsHas : Text → Bool) (startPath : Text) (fuel : Nat) :
    Option (Option Text) :=
  let d := dirname startPath
  findTsLoop fsHas (parseRoot d) fuel d

/-- The directories the loop of `findTsConfigFile` inspects, in order, when
started at `dir` with the given root: the chain stops at the root, which is
itself never included. -/
def dirChain (root : Text) : Nat → Text → List Text
  | 0, _ => []
  | fuel + 1, dir =>
    if dir = root then []
    else dir :: dirChain root fuel (dirname dir)

/-! ## `TRPCGenerator` -/

/-- A router discovered by the router factory: the metadata fields
destructured by `generateSchemaFile` plus the instance, whose type is
abstract. -/
structure RouteDef (I : Type) where
  name : Text
  path : Text
  routeAlias : Text
  inst : I
deriving DecidableEq

/-- One element of `mappedRoutesAndProcedures`: the route metadata carried
over unchanged, the spread copy of the route object, and the procedures
obtained from the procedure factory. -/
structure MappedRoute (I P : Type) where
  name : Text
  path : Text
  routeAlias : Text
  instCopy : RouteDef I
  procedures : List P
deriving DecidableEq

/-- The `routers.map((route) => ...)` step of `generateSchemaFile`:
`getProcs` stands for `procedureFactory.getProcedures(instance, prototype)`
(the prototype is obtained from the instance, so it is a function of the
route). -/
def mapRoutesAndProcedures {I P : Type} (getProcs : RouteDef I → List P)
    (routers : List (RouteDef I)) : List (MappedRoute I P) :=
  routers.map (fun route =>
    { name := route.name, path := route.path, routeAlias := route.routeAlias,
      instCopy := route, procedures := getProcs route })

/-- The collaborators of `TRPCGenerator`, abstracted: the factories, the
static and router serializers, the file system, and the Node `path.resolve`
function.  Fallible collaborators return `Except` with the thrown message. -/
structure GenEnv (I P : Type) where
  getRouters : Except Text (List (RouteDef I))
  getProcedures : RouteDef I → List P
  generateStaticDeclaration : RouterFile → Except Text RouterFile
  addSchemaImports : RouterFile → List Text → Except Text RouterFile
  serializeRouters : List (MappedRoute I P) → Except Text (List Text)
  generateRoutersString : List Text → Except Text Text
  saveFile : RouterFile → Except Text Unit
  findTsConfig : Option Text
  readFile : Text → Except Text Text
  parsePaths : Text → Except Text (Option (List (Text × List Text)))
  fileExists : Text → Bool
  resolve : Text → Text → Text

/-- The body of the per-file loop of the regex `injectFilesContent`:
resolve the path, and when the resolved file exists, read it and inject its
content; a read error is caught by the inner `catch` and only logged, and a
missing file is only logged. -/
def injectOne {I P : Type} (env : GenEnv I P) (pathAliases : List (Text × List Text))
    (basePath : Text) (rf : RouterFile) (filePath : Text) : RouterFile :=
  let resolvedPath := resolvePathWithAliases env.resolve filePath pathAliases basePath
  if env.fileExists resolvedPath then
    match env.readFile resolvedPath with
    | .error _ => rf
    | .ok content => regexInjectFile content rf
  else rf

/-- The regex `injectFilesContent` (lines 145 to 305): when
`findTsConfigFile` returns null, nothing happens beyond a warning; otherwise
the tsconfig is read and parsed, the alias map defaults to the empty map
when `compilerOptions.paths` is absent, and every requested path is injected
in order.  A read or parse failure is caught by the outer `catch`.  The
returned flag records whether a warning was logged instead of completing
the loop. -/
def injectFilesContent {I P : Type} (env : GenEnv I P) (filePaths : List Text)
    (rf : RouterFile) : RouterFile × Bool :=
  match env.findTsConfig with
  | none => (rf, true)
  | some tsPath =>
    match env.readFile tsPath with
    | .error _ => (rf, true)
    | .ok content =>
      match env.parsePaths content with
      | .error _ => (rf, true)
      | .ok pathsOpt =>
        let pathAliases := pathsOpt.getD []
        (filePaths.foldl (injectOne env pathAliases (dirname tsPath)) rf, false)

/-- A schema import entry; only its `name` field is read. -/
structure SchemaImport where
  name : Text
deriving DecidableEq

/-- The statements appended at the end of `generateSchemaFile`, the exact
template literal of the source with the serialized router declarations
spliced in. -/
def routerTemplate (routersStringDeclarations : Text) : Text :=
  ("\n        const appRouter = t.router(\x7b").toList ++ routersStringDeclarations
    ++ ("\x7d);\n        export type AppRouter = typeof appRouter;\n      ").toList

/-- The `if (schemaImports != null && schemaImports.length > 0)` step of
`generateSchemaFile`: the names are mapped out of the entries and handed to
the static generator. -/
def schemaImportsStep {I P : Type} (env : GenEnv I P)
    (schemaImports : Option (List SchemaImport)) (rf1 : RouterFile) :
    Except Text RouterFile :=
  match schemaImports with
  | some sis =>
    if sis ≠ [] then env.addSchemaImports rf1 (sis.map (fun s => s.name))
    else .ok rf1
  | none => .ok rf1

/-- The `if (injectFiles != null && injectFiles.length > 0)` step of
`generateSchemaFile`. -/
def injectStep {I P : Type} (env : GenEnv I P) (injectFiles : Option (List Text))
    (rf2 : RouterFile) : RouterFile :=
  match injectFiles with
  | some fps => if fps ≠ [] then (injectFilesContent env fps rf2).1 else rf2
  | none => rf2

/-- The `try` body of `generateSchemaFile`, threading the app-router file
through each step.  The result carries the file as mutated so far, whether
the save completed, and the uncaught error if one was thrown. -/
def generateSchemaFileRun {I P : Type} (env : GenEnv I P)
    (schemaImports : Option (List SchemaImport)) (injectFiles : Option (List Text))
    (rf0 : RouterFile) : RouterFile × Bool × Option Text :=
  match env.getRouters with
  | .error e => (rf0, false, some e)
  | .ok routers =>
    let mapped := mapRoutesAndProcedures env.getProcedures routers
    match env.generateStaticDeclaration rf0 with
    | .error e => (rf0, false, some e)
    | .ok rf1 =>
      match schemaImportsStep env schemaImports rf1 with
      | .error e => (rf1, false, some e)
      | .ok rf2 =>
        let rf3 := injectStep env injectFiles rf2
        match env.serializeRouters mapped with
        | .error e => (rf3, false, some e)
        | .ok md =>
          match env.generateRoutersString md with
          | .error e => (rf3, false, some e)
          | .ok decls =>
            let rf4 := { rf3 with statements := rf3.statements ++ [routerTemplate decls] }
            match env.saveFile rf4 with
            | .error e => (rf4, false, some e)
            | .ok _ => (rf4, true, none)

/-- The public `generateSchemaFile`: the whole body sits in a
`try ... catch` whose handler only logs a warning, so the returned promise
always resolves.  The resolved value carries the file state, the save flag
and the warning, if any. -/
def generateSchemaFile {I P : Type} (env : GenEnv I P)
    (schemaImports : Option (List SchemaImport)) (injectFiles : Option (List Text))
    (rf0 : RouterFile) : Except Text (RouterFile × Bool × Option Text) :=
  match generateSchemaFileRun env schemaImports injectFiles rf0 with
  | (rf, saved, none) => .ok (rf, saved, none)
  | (rf, saved, some _) =>
    .ok (rf, saved, some ("TRPC Generator encountered an error.".toList))

/-- The helper-types source file synthesized by `generateHelpersFile`. -/
structure HelperFile where
  typeAliases : List (Text × Text)
  interfaces : List (Text × Text)
deriving DecidableEq

/-- A middleware interface as returned by the middleware generator. -/
structure MwInterface where
  name : Text
  properties : Text
deriving DecidableEq

/-- The collaborators of `generateHelpersFile`. -/
structure HelpersEnv (M : Type) where
  getMiddlewares : Except Text (List M)
  importsMapHas : Text → Bool
  getContextInterface : Text → Except Text (Option Text)
  getMiddlewareInterface : M → Except Text (Option MwInterface)
  saveHelperFile : HelperFile → Except Text Unit

/-- The `try` body of `generateHelpersFile`: create the helper file, add the
`Context` type alias when a context class is given (throwing when the root
imports map has no entry for it), add one interface per middleware, save. -/
def generateHelpersFileRun {M : Type} (env : HelpersEnv M)
    (context : Option Text) : Option HelperFile × Bool × Option Text :=
  match env.getMiddlewares with
  | .error e => (none, false, some e)
  | .ok middlewares =>
    let hf0 : HelperFile := ⟨[], []⟩
    let afterCtx : Except Text HelperFile :=
      match context with
      | none => .ok hf0
      | some ctxName =>
        if env.importsMapHas ctxName then
          match env.getContextInterface ctxName with
          | .error e => .error e
          | .ok ctxType =>
            .ok { hf0 with typeAliases :=
              hf0.typeAliases ++ [("Context".toList, ctxType.getD ("\x7b\x7d".toList))] }
        else .error ("Could not find context import declaration.".toList)
    match afterCtx with
    | .error e => (some hf0, false, some e)
    | .ok hf1 =>
      let step := middlewares.foldl
        (fun (acc : HelperFile × Option Text) mw =>
          match acc.2 with
          | some _ => acc
          | none =>
            match env.getMiddlewareInterface mw with
            | .error e => (acc.1, some e)
            | .ok none => acc
            | .ok (some mi) =>
              ({ acc.1 with interfaces :=
                 acc.1.interfaces ++ [(mi.name ++ "Context".toList, mi.properties)] },
               none))
        (hf1, none)
      match step.2 with
      | some e => (some step.1, false, some e)
      | none =>
        match env.saveHelperFile step.1 with
        | .error e => (some step.1, false, some e)
        | .ok _ => (some step.1, true, none)

/-- The public `generateHelpersFile`: like `generateSchemaFile`, the whole
body is wrapped in a `try ... catch` that only logs, so the promise always
resolves. -/
def generateHelpersFile {M : Type} (env : HelpersEnv M) (context : Option Text) :
    Except Text (Option HelperFile × Bool × Option Text) :=
  match generateHelpersFileRun env context with
  | (hf, saved, none) => .ok (hf, saved, none)
  | (hf, saved, some _) =>
    .ok (hf, saved, some ("TRPC Generator encountered an error.".toList))

/-! ## `AppRouterHost` -/

/-- `AppRouterHost` of the library: the private `_appRouter` field is
`undefined` until the setter runs.  Router values are objects, hence always
truthy, so the falsy check of the getter is the `undefined` check. -/
structure AppRouterHost (R : Type) where
  _appRouter : Option R

/-- The `appRouter` setter. -/
def setAppRouter {R : Type} (h : AppRouterHost R) (r : R) : AppRouterHost R :=
  { h with _appRouter := some r }

/-- `isRouterReady()`. -/
def isRouterReady {R : Type} (h : AppRouterHost R) : Bool :=
  h._appRouter.isSome

/-- The `appRouter` getter: throws when the router was never assigned. -/
def appRouterGet {R : Type} (h : AppRouterHost R) : Except Text R :=
  match h._appRouter with
  | none => .error ("TRPC appRouter has not yet been created.".toList)
  | some r => .ok r

/-- `getRouterSafe()`: never throws, `undefined` when not assigned. -/
def getRouterSafe {R : Type} (h : AppRouterHost R) : Option R :=
  h._appRouter

/-! ## Auxiliary definitions used by the theorems below -/

/-- The invariant linking the app-router file to the `existingImports` set:
the file is well formed, every module specifier of the file is in the set,
and the key of every (module, named import) pair of the file is in the set. -/
def InvRF (rf : RouterFile) (ex : List Text) : Prop :=
  wfRouterFile rf ∧
  (∀ p ∈ rf.imports, p.1 ∈ ex) ∧
  (∀ q ∈ pairsOf rf, mkKey q.1 q.2 ∈ ex)

/-- A concrete generator environment in which every collaborator succeeds
and no tsconfig is found. -/
def cGenEnv : GenEnv Nat Nat where
  getRouters := .ok [⟨"r".toList, "p".toList, "al".toList, 0⟩]
  getProcedures := fun _ => [1]
  generateStaticDeclaration := fun rf =>
    .ok { rf with statements := rf.statements ++ ["static".toList] }
  addSchemaImports := fun rf _ => .ok rf
  serializeRouters := fun _ => .ok ["meta".toList]
  generateRoutersString := fun _ => .ok ("decls".toList)
  saveFile := fun _ => .ok ()
  findTsConfig := none
  readFile := fun _ => .error ("enoent".toList)
  parsePaths := fun _ => .ok none
  fileExists := fun _ => false
  resolve := fun b r => b ++ '/' :: r

/-- The same environment with a failing router serializer. -/
def cGenEnvErr : GenEnv Nat Nat :=
  { cGenEnv with serializeRouters := fun _ => .error ("boom".toList) }

/-- A character allowed in a canonical named import: printable, not
whitespace, not a comma, brace or quote. -/
def goodNameChar (c : Char) : Prop :=
  jsWs c = false ∧ c ≠ ',' ∧ c ≠ lbraceChar ∧ c ≠ rbraceChar ∧ isQuote c = false

/-- A canonical import group (module specifier, named imports): non-empty
quote-free module, at least one non-empty name of good characters. -/
def goodImport (p : Text × List Text) : Prop :=
  p.1 ≠ [] ∧ (∀ c ∈ p.1, isQuote c = false) ∧ p.2 ≠ [] ∧
  ∀ n ∈ p.2, n ≠ [] ∧ ∀ c ∈ n, goodNameChar c

instance (c : Char) : Decidable (goodNameChar c) := by
  unfold goodNameChar; infer_instance

instance (p : Text × List Text) : Decidable (goodImport p) := by
  unfold goodImport; infer_instance

/-- Comma-space separated rendering of a named import list. -/
def joinComma : List Text → Text
  | [] => []
  | [n] => n
  | n :: rest => n ++ ',' :: ' ' :: joinComma rest

/-- The canonical text of a named import declaration,
`import { n1, ..., nk } from 'm';`. -/
def renderImport (p : Text × List Text) : Text :=
  ("import \x7b ").toList ++ joinComma p.2 ++ (" \x7d from \x27").toList
    ++ p.1 ++ ("\x27;").toList

/-- The canonical import declaration as a parsed statement. -/
def canonImportStmt (p : Text × List Text) : Stmt :=
  ⟨true, renderImport p⟩

/-! ## Claim C8: `AppRouterHost` access discipline -/

/-- Claim C8: in every state of an `AppRouterHost`, the `appRouter` getter
throws exactly when no router has been assigned, `isRouterReady()` returns
true exactly when one has been, `getRouterSafe()` is the total read of the
field and returns `undefined` exactly when no router has been assigned, and
once a router is assigned (in particular right after the setter runs) the
three accessors agree on it. -/
theorem c8_app_router_host (R : Type) (h : AppRouterHost R) :
    ((∃ e, appRouterGet h = .error e) ↔ h._appRouter = none) ∧
    (isRouterReady h = true ↔ h._appRouter ≠ none) ∧
    getRouterSafe h = h._appRouter ∧
    (getRouterSafe h = none ↔ h._appRouter = none) ∧
    (∀ r, h._appRouter = some r →
      appRouterGet h = .ok r ∧ isRouterReady h = true ∧ getRouterSafe h = some r) ∧
    (∀ r, appRouterGet (setAppRouter h r) = .ok r ∧
      isRouterReady (setAppRouter h r) = true ∧
      getRouterSafe (setAppRouter h r) = some r) := by
  refine ⟨?_, ?_, rfl, Iff.rfl, ?_, ?_⟩
  · cases hr : h._appRouter <;> simp [appRouterGet, hr]
  · cases hr : h._appRouter <;> simp [isRouterReady, hr, Option.isSome]
  · intro r hr; simp [appRouterGet, isRouterReady, getRouterSafe, hr, Option.isSome]
  · intro r; simp [appRouterGet, isRouterReady, getRouterSafe, setAppRouter, Option.isSome]

/-- Witness for C8 at a concrete host state. -/
theorem c8_app_router_host_witness :
    appRouterGet (AppRouterHost.mk (some 5)) = .ok 5 ∧
    isRouterReady ((⟨none⟩ : AppRouterHost Nat)) = false := by
  constructor
  · exact ((c8_app_router_host Nat ⟨some 5⟩).2.2.2.2.1 5 rfl).1
  · have h := (c8_app_router_host Nat ⟨none⟩).2.1
    simp at h ⊢
    simp [isRouterReady]

/-! ## Claim C6: router discovery preserves metadata and order -/

/-- Claim C6: `generateSchemaFile` maps the factory's router list to exactly
one entry per router, preserving order, carrying name, path and alias
unchanged together with the procedures obtained from the route instance. -/
theorem c6_mapping_preserves_metadata (I P : Type) (getProcs : RouteDef I → List P)
    (routers : List (RouteDef I)) :
    (mapRoutesAndProcedures getProcs routers).length = routers.length ∧
    (mapRoutesAndProcedures getProcs routers).map
        (fun e => (e.name, e.path, e.routeAlias))
      = routers.map (fun r => (r.name, r.path, r.routeAlias)) ∧
    (mapRoutesAndProcedures getProcs routers).map (fun e => e.procedures)
      = routers.map (fun r => getProcs r) ∧
    (mapRoutesAndProcedures getProcs routers).map (fun e => e.instCopy) = routers := by
  refine ⟨?_, ?_, ?_, ?_⟩ <;>
    simp only [mapRoutesAndProcedures, List.map_map, List.length_map]
  · rfl
  · rfl
  · show List.map (fun r => r) routers = routers
    simp

/-! ## Claim C2: tsconfig path-alias resolution -/

/-- The alias loop ignores a block of entries that are empty or do not
match. -/
theorem resolveAliasLoop_skip (resolve : Text → Text → Text) (p b : Text)
    (pre rest : List (Text × List Text))
    (hpre : ∀ q ∈ pre, q.2 = [] ∨ (stripStar q.1).isPrefixOf p = false) :
    resolveAliasLoop resolve p b (pre ++ rest) = resolveAliasLoop resolve p b rest := by
  induction pre with
  | nil => rfl
  | cons q pre ih =>
    have hq := hpre q (List.mem_cons_self _ _)
    have hrest : ∀ q ∈ pre, q.2 = [] ∨ (stripStar q.1).isPrefixOf p = false :=
      fun q hq => hpre q (List.mem_cons_of_mem _ hq)
    obtain ⟨qa, qt⟩ := q
    rcases hq with hq | hq
    · simp only at hq
      subst hq
      simp only [List.cons_append, resolveAliasLoop]
      exact ih hrest
    · cases qt with
      | nil =>
        simp only [List.cons_append, resolveAliasLoop]
        exact ih hrest
      | cons t0 ts =>
        simp only at hq
        simp only [List.cons_append, resolveAliasLoop, hq, Bool.false_eq_true, if_false]
        exact ih hrest

/-- Claim C2: `resolvePathWithAliases` returns an absolute path unchanged;
for a non-absolute path it uses the first alias entry with a non-empty
target list whose converted pattern is a prefix of the path, resolving the
converted first target plus the path remainder against the base path; and a
non-absolute path matching no alias is resolved against the base path. -/
theorem c2_resolve_aliases (resolve : Text → Text → Text) (p basePath : Text)
    (al : List (Text × List Text)) :
    (isAbsolutePath p = true → resolvePathWithAliases resolve p al basePath = p) ∧
    (∀ pre pat t0 ts post, al = pre ++ (pat, t0 :: ts) :: post →
      (∀ q ∈ pre, q.2 = [] ∨ (stripStar q.1).isPrefixOf p = false) →
      (stripStar pat).isPrefixOf p = true →
      isAbsolutePath p = false →
      resolvePathWithAliases resolve p al basePath
        = resolve basePath (stripStar t0 ++ p.drop (stripStar pat).length)) ∧
    ((∀ q ∈ al, q.2 = [] ∨ (stripStar q.1).isPrefixOf p = false) →
      isAbsolutePath p = false →
      resolvePathWithAliases resolve p al basePath = resolve basePath p) := by
  refine ⟨?_, ?_, ?_⟩
  · intro habs; simp [resolvePathWithAliases, habs]
  · intro pre pat t0 ts post hal hpre hpat habs
    subst hal
    unfold resolvePathWithAliases
    simp only [habs, Bool.false_eq_true, if_false]
    rw [resolveAliasLoop_skip resolve p basePath pre _ hpre]
    simp [resolveAliasLoop, hpat]
  · intro hall habs
    unfold resolvePathWithAliases
    simp only [habs, Bool.false_eq_true, if_false]
    have h : resolveAliasLoop resolve p basePath al = none := by
      have := resolveAliasLoop_skip resolve p basePath al [] hall
      simpa using this
    rw [h]
    split
    · rename_i md heq; exact absurd heq (by simp)
    · split <;> rfl

/-- Witness for C2 at a concrete alias map: the first entry is skipped for
its empty target list, the second matches. -/
theorem c2_resolve_aliases_witness :
    resolvePathWithAliases (fun b r => b ++ '!' :: r) ("@/foo.ts".toList)
      [("skip".toList, []), ("@/*".toList, ["./src/*".toList, "./x/*".toList])]
      ("/base".toList)
      = ("/base!./src/foo.ts").toList := by
  have h := (c2_resolve_aliases (fun b r => b ++ '!' :: r) ("@/foo.ts".toList)
    ("/base".toList)
    [("skip".toList, []), ("@/*".toList, ["./src/*".toList, "./x/*".toList])]).2.1
    [("skip".toList, [])] ("@/*".toList) ("./src/*".toList) ["./x/*".toList] []
    (by decide) (by decide) (by decide) (by decide)
  rw [h]
  decide

/-! ## Claim C5: raw-text splicing -/

/-- Import-pair processing changes only the import section, never the
statements. -/
theorem statements_processNamedImport (st : RouterFile × List Text) (m n : Text) :
    (processNamedImport st m n).1.statements = st.1.statements := by
  obtain ⟨rf, ex⟩ := st
  by_cases h1 : mkKey m n ∈ ex
  · simp [processNamedImport, h1]
  · by_cases h2 : m ∈ ex <;> simp [processNamedImport, h1, h2]

/-- Import-pair processing over a list changes no statements. -/
theorem statements_processPairs (ps : List (Text × Text)) (st : RouterFile × List Text) :
    (processPairs ps st).1.statements = st.1.statements := by
  induction ps generalizing st with
  | nil => rfl
  | cons p ps ih =>
    unfold processPairs at *
    rw [List.foldl_cons, ih, statements_processNamedImport]

/-- Claim C5: after the matched import statements are removed from the
injected file's text and the cleanup passes have collapsed repeated
semicolons, removed line-leading semicolons and removed line-trailing
semicolons, the trimmed remainder of the text is appended verbatim as
statements at the end of the app-router source file when it is non-empty,
and the splice step adds no statements when it is empty. -/
theorem c5_raw_text_splice (fileContent : Text) (rf : RouterFile) :
    (regexInjectFile fileContent rf).statements =
      rf.statements ++
        (if spliceRemainder fileContent = [] then []
         else [spliceRemainder fileContent]) := by
  simp only [regexInjectFile]
  split <;> simp [statements_processPairs]

/-! ## Claim C7: tsconfig gating of injection -/

/-- Claim C7: `injectFilesContent` reads the alias map from the
`compilerOptions.paths` field of the tsconfig found by `findTsConfigFile`
(empty map when the field is absent), and when no tsconfig is found it makes
no modification to the app-router source file for any requested inject path
and only reports a warning. -/
theorem c7_tsconfig_gating (I P : Type) (env : GenEnv I P) (fps : List Text)
    (rf : RouterFile) :
    (env.findTsConfig = none → injectFilesContent env fps rf = (rf, true)) ∧
    (∀ t content pathsOpt, env.findTsConfig = some t →
      env.readFile t = .ok content →
      env.parsePaths content = .ok pathsOpt →
      injectFilesContent env fps rf
        = (fps.foldl (injectOne env (pathsOpt.getD []) (dirname t)) rf, false)) ∧
    (∀ t content, env.findTsConfig = some t →
      env.readFile t = .ok content →
      env.parsePaths content = .ok none →
      injectFilesContent env fps rf
        = (fps.foldl (injectOne env [] (dirname t)) rf, false)) := by
  refine ⟨?_, ?_, ?_⟩
  · intro h; unfold injectFilesContent; rw [h]
  · intro t content pathsOpt h1 h2 h3
    unfold injectFilesContent
    rw [h1]
    simp only [h2, h3]
  · intro t content h1 h2 h3
    unfold injectFilesContent
    rw [h1]
    simp only [h2, h3, Option.getD_none]

/-- Witness for C7: with no tsconfig found, injection leaves the app-router
file untouched and warns. -/
theorem c7_tsconfig_gating_witness :
    injectFilesContent cGenEnv ["@/a.ts".toList] emptyRouterFile
      = (emptyRouterFile, true) :=
  (c7_tsconfig_gating Nat Nat cGenEnv ["@/a.ts".toList] emptyRouterFile).1 rfl

/-! ## Claim C4: merged-router emission -/

/-- Claim C4: whenever `generateSchemaFile`'s body completes without an
error, the app-router source file ends with the template statements
`const appRouter = t.router({...})` and `export type AppRouter = typeof
appRouter` built from the serialized declarations of every discovered
router, and the file is then persisted through the overriding save. -/
theorem c4_router_emission (I P : Type) (env : GenEnv I P)
    (si : Option (List SchemaImport)) (inj : Option (List Text))
    (rf0 rfF : RouterFile)
    (h : generateSchemaFileRun env si inj rf0 = (rfF, true, none)) :
    ∃ routers md decls pre,
      env.getRouters = .ok routers ∧
      env.serializeRouters (mapRoutesAndProcedures env.getProcedures routers)
        = .ok md ∧
      env.generateRoutersString md = .ok decls ∧
      rfF.statements = pre ++ [routerTemplate decls] ∧
      env.saveFile rfF = .ok () := by
  unfold generateSchemaFileRun at h
  cases hgr : env.getRouters with
  | error e => rw [hgr] at h; simp at h
  | ok routers =>
  rw [hgr] at h
  simp only at h
  cases hsd : env.generateStaticDeclaration rf0 with
  | error e => rw [hsd] at h; simp at h
  | ok rf1 =>
  rw [hsd] at h
  simp only at h
  cases hs2 : schemaImportsStep env si rf1 with
  | error e => rw [hs2] at h; simp at h
  | ok rf2 =>
  rw [hs2] at h
  simp only at h
  cases hse : env.serializeRouters (mapRoutesAndProcedures env.getProcedures routers) with
  | error e => rw [hse] at h; simp at h
  | ok md =>
  rw [hse] at h
  simp only at h
  cases hgs : env.generateRoutersString md with
  | error e => rw [hgs] at h; simp at h
  | ok decls =>
  rw [hgs] at h
  simp only at h
  cases hsv : env.saveFile { injectStep env inj rf2 with
      statements := (injectStep env inj rf2).statements ++ [routerTemplate decls] } with
  | error e => rw [hsv] at h; simp at h
  | ok u =>
  rw [hsv] at h
  simp only [Prod.mk.injEq] at h
  obtain ⟨hrf, -, -⟩ := h
  refine ⟨routers, md, decls, (injectStep env inj rf2).statements, rfl, hse, hgs, ?_, ?_⟩
  · rw [← hrf]
  · rw [← hrf]
    cases u
    exact hsv

/-- Witness for C4 at the concrete all-success environment. -/
theorem c4_router_emission_witness :
    ∃ routers md decls pre,
      cGenEnv.getRouters = .ok routers ∧
      cGenEnv.serializeRouters (mapRoutesAndProcedures cGenEnv.getProcedures routers)
        = .ok md ∧
      cGenEnv.generateRoutersString md = .ok decls ∧
      (RouterFile.mk [] ["static".toList, routerTemplate ("decls".toList)]).statements
        = pre ++ [routerTemplate decls] ∧
      cGenEnv.saveFile
        (RouterFile.mk [] ["static".toList, routerTemplate ("decls".toList)])
        = .ok () :=
  c4_router_emission Nat Nat cGenEnv none none emptyRouterFile
    (RouterFile.mk [] ["static".toList, routerTemplate ("decls".toList)]) rfl

/-! ## Claim C9: generator methods never propagate errors -/

/-- Claim C9: the promises returned by `generateSchemaFile` and
`generateHelpersFile` always resolve (every internal error is caught and
surfaced only as a logged warning), and the app-router source file is not
rolled back: there is a run in which an error is reported and the file
state nevertheless differs from the initial one. -/
theorem c9_never_reject :
    (∀ (I P : Type) (env : GenEnv I P) (si : Option (List SchemaImport))
       (inj : Option (List Text)) (rf0 : RouterFile),
      ∃ v, generateSchemaFile env si inj rf0 = .ok v) ∧
    (∀ (M : Type) (env : HelpersEnv M) (ctx : Option Text),
      ∃ v, generateHelpersFile env ctx = .ok v) ∧
    (∃ (env : GenEnv Nat Nat) (rf0 rf : RouterFile) (w : Text),
      generateSchemaFile env none none rf0 = .ok (rf, false, some w) ∧ rf ≠ rf0) := by
  refine ⟨?_, ?_, ?_⟩
  · intro I P env si inj rf0
    unfold generateSchemaFile
    rcases generateSchemaFileRun env si inj rf0 with ⟨rf, saved, w⟩
    cases w <;> exact ⟨_, rfl⟩
  · intro M env ctx
    unfold generateHelpersFile
    rcases generateHelpersFileRun env ctx with ⟨hf, saved, w⟩
    cases w <;> exact ⟨_, rfl⟩
  · refine ⟨cGenEnvErr, emptyRouterFile, RouterFile.mk [] ["static".toList],
      "TRPC Generator encountered an error.".toList, rfl, ?_⟩
    decide

/-! ## Claim C1: import deduplication during file injection -/

theorem mem_pairsOf {rf : RouterFile} {m n : Text} :
    (m, n) ∈ pairsOf rf ↔ ∃ ns, (m, ns) ∈ rf.imports ∧ n ∈ ns := by
  simp only [pairsOf, List.mem_flatMap, List.mem_map]
  constructor
  · rintro ⟨⟨a, ns⟩, hmem, b, hb, heq⟩
    obtain ⟨h1, h2⟩ := Prod.mk.injEq .. ▸ heq
    exact ⟨ns, by simpa [← h1] using hmem, by simpa [h2] using hb⟩
  · rintro ⟨ns, hmem, hn⟩
    exact ⟨(m, ns), hmem, n, hn, rfl⟩

theorem mem_insertKey_self (ex : List Text) (k : Text) : k ∈ insertKey ex k := by
  unfold insertKey
  split
  · assumption
  · simp

theorem mem_insertKey_of_mem {ex : List Text} {a : Text} (k : Text) (h : a ∈ ex) :
    a ∈ insertKey ex k := by
  unfold insertKey
  split
  · exact h
  · exact List.mem_append_left _ h

theorem mem_insertKey_iff {ex : List Text} {a k : Text} :
    a ∈ insertKey ex k ↔ a ∈ ex ∨ a = k := by
  unfold insertKey
  split
  · rename_i hk
    constructor
    · exact Or.inl
    · rintro (h | rfl) <;> [exact h; exact hk]
  · simp

theorem map_fst_addNamedToFirst (l : List (Text × List Text)) (md n : Text) :
    (addNamedToFirst l md n).map Prod.fst = l.map Prod.fst := by
  induction l with
  | nil => rfl
  | cons p rest ih =>
    obtain ⟨m, ns⟩ := p
    unfold addNamedToFirst
    split <;> simp [ih]

theorem mem_addNamedToFirst {l : List (Text × List Text)} {md n : Text}
    {p : Text × List Text} (h : p ∈ addNamedToFirst l md n) :
    p ∈ l ∨ ∃ ns, (md, ns) ∈ l ∧ p = (md, ns ++ [n]) := by
  induction l with
  | nil => simp [addNamedToFirst] at h
  | cons q rest ih =>
    obtain ⟨m, ns⟩ := q
    unfold addNamedToFirst at h
    by_cases hm : m = md
    · subst hm
      rw [if_pos rfl] at h
      rcases List.mem_cons.mp h with heq | h
      · exact Or.inr ⟨ns, List.mem_cons_self _ _, heq⟩
      · exact Or.inl (List.mem_cons_of_mem _ h)
    · rw [if_neg hm] at h
      rcases List.mem_cons.mp h with heq | h
      · exact Or.inl (List.mem_cons.mpr (Or.inl heq))
      · rcases ih h with h | ⟨ns', hmem, heq⟩
        · exact Or.inl (List.mem_cons_of_mem _ h)
        · exact Or.inr ⟨ns', List.mem_cons_of_mem _ hmem, heq⟩

theorem processNamedImport_inv {rf : RouterFile} {ex : List Text} {m n : Text}
    (h : InvRF rf ex) :
    InvRF (processNamedImport (rf, ex) m n).1 (processNamedImport (rf, ex) m n).2 ∧
    ∀ q ∈ pairsOf (processNamedImport (rf, ex) m n).1, q ∈ pairsOf rf ∨ q = (m, n) := by
  obtain ⟨⟨hfst, hns⟩, hmods, hkeys⟩ := h
  by_cases h1 : mkKey m n ∈ ex
  · simp only [processNamedImport, if_pos h1]
    exact ⟨⟨⟨hfst, hns⟩, hmods, hkeys⟩, fun q hq => Or.inl hq⟩
  · by_cases h2 : m ∈ ex
    · simp only [processNamedImport, if_neg h1, if_pos h2]
      have hpairs : ∀ q ∈ pairsOf (RouterFile.mk (addNamedToFirst rf.imports m n)
          rf.statements), q ∈ pairsOf rf ∨ q = (m, n) := by
        rintro ⟨a, b⟩ hq
        obtain ⟨ns', hmem, hb⟩ := mem_pairsOf.mp hq
        rcases mem_addNamedToFirst hmem with hold | ⟨ns, hnsmem, heq⟩
        · exact Or.inl (mem_pairsOf.mpr ⟨ns', hold, hb⟩)
        · obtain ⟨ha, hns'⟩ := Prod.mk.injEq .. ▸ heq
          subst ha; subst hns'
          rcases List.mem_append.mp hb with hb | hb
          · exact Or.inl (mem_pairsOf.mpr ⟨ns, hnsmem, hb⟩)
          · simp only [List.mem_singleton] at hb
            subst hb
            exact Or.inr rfl
      refine ⟨⟨⟨?_, ?_⟩, ?_, ?_⟩, hpairs⟩
      · show ((addNamedToFirst rf.imports m n).map Prod.fst).Nodup
        rw [map_fst_addNamedToFirst]; exact hfst
      · rintro ⟨a, bs⟩ hmem
        rcases mem_addNamedToFirst hmem with hold | ⟨ns, hnsmem, heq⟩
        · exact hns _ hold
        · obtain ⟨ha, hbs⟩ := Prod.mk.injEq .. ▸ heq
          subst hbs
          have hnodup : ns.Nodup := hns _ hnsmem
          have hnotin : n ∉ ns := by
            intro hn
            exact h1 (hkeys (m, n) (mem_pairsOf.mpr ⟨ns, hnsmem, hn⟩))
          simp [List.nodup_append, hnodup, hnotin]
      · rintro ⟨a, bs⟩ hmem
        rcases mem_addNamedToFirst hmem with hold | ⟨ns, hnsmem, heq⟩
        · exact mem_insertKey_of_mem _ (hmods _ hold)
        · obtain ⟨ha, _⟩ := Prod.mk.injEq .. ▸ heq
          subst ha
          exact mem_insertKey_of_mem _ h2
      · rintro ⟨a, b⟩ hq
        rcases hpairs (a, b) hq with hold | heq
        · exact mem_insertKey_of_mem _ (hkeys _ hold)
        · obtain ⟨ha, hb⟩ := Prod.mk.injEq .. ▸ heq
          subst ha; subst hb
          exact mem_insertKey_self _ _
    · simp only [processNamedImport, if_neg h1, if_neg h2]
      have hpairsEq : pairsOf (RouterFile.mk (rf.imports ++ [(m, [n])]) rf.statements)
          = pairsOf rf ++ [(m, n)] := by
        simp [pairsOf]
      refine ⟨⟨⟨?_, ?_⟩, ?_, ?_⟩, ?_⟩
      · show ((rf.imports ++ [(m, [n])]).map Prod.fst).Nodup
        rw [List.map_append]
        refine List.Nodup.append hfst (by simp) ?_
        intro a ha hb
        simp only [List.map_cons, List.map_nil, List.mem_singleton] at hb
        subst hb
        obtain ⟨p, hp, hpa⟩ := List.mem_map.mp ha
        exact h2 (hpa ▸ hmods p hp)
      · rintro ⟨a, bs⟩ hmem
        rcases List.mem_append.mp hmem with hold | hnew
        · exact hns _ hold
        · simp only [List.mem_singleton] at hnew
          obtain ⟨_, hbs⟩ := Prod.mk.injEq .. ▸ hnew
          subst hbs; simp
      · rintro ⟨a, bs⟩ hmem
        rcases List.mem_append.mp hmem with hold | hnew
        · exact mem_insertKey_of_mem _ (mem_insertKey_of_mem _ (hmods _ hold))
        · simp only [List.mem_singleton] at hnew
          obtain ⟨ha, _⟩ := Prod.mk.injEq .. ▸ hnew
          subst ha
          exact mem_insertKey_of_mem _ (mem_insertKey_self _ _)
      · rintro ⟨a, b⟩ hq
        rw [hpairsEq] at hq
        rcases List.mem_append.mp hq with hold | hnew
        · exact mem_insertKey_of_mem _ (mem_insertKey_of_mem _ (hkeys _ hold))
        · simp only [List.mem_singleton] at hnew
          obtain ⟨ha, hb⟩ := Prod.mk.injEq .. ▸ hnew
          subst ha; subst hb
          exact mem_insertKey_self _ _
      · rintro ⟨a, b⟩ hq
        rw [hpairsEq] at hq
        rcases List.mem_append.mp hq with hold | hnew
        · exact Or.inl hold
        · simp only [List.mem_singleton] at hnew
          exact Or.inr hnew

theorem processPairs_inv {ps : List (Text × Text)} {st : RouterFile × List Text}
    (h : InvRF st.1 st.2) :
    InvRF (processPairs ps st).1 (processPairs ps st).2 ∧
    ∀ q ∈ pairsOf (processPairs ps st).1, q ∈ pairsOf st.1 ∨ q ∈ ps := by
  induction ps generalizing st with
  | nil => exact ⟨h, fun q hq => Or.inl hq⟩
  | cons p ps ih =>
    obtain ⟨rf, ex⟩ := st
    obtain ⟨hstep, hprov⟩ := @processNamedImport_inv rf ex p.1 p.2 h
    have hfold := @ih (processNamedImport (rf, ex) p.1 p.2) hstep
    have hlist : processPairs (p :: ps) (rf, ex)
        = processPairs ps (processNamedImport (rf, ex) p.1 p.2) := by
      simp [processPairs]
    refine ⟨hlist ▸ hfold.1, ?_⟩
    intro q hq
    rw [hlist] at hq
    rcases hfold.2 q hq with hmid | hp
    · rcases hprov q hmid with hold | heq
      · exact Or.inl hold
      · exact Or.inr (heq ▸ List.mem_cons_self _ _)
    · exact Or.inr (List.mem_cons_of_mem _ hp)

theorem mem_innerFold {acc : List Text} {a : Text} (f : Text → Text)
    (ns : List Text) (h : a ∈ acc) :
    a ∈ ns.foldl (fun ex n => insertKey ex (f n)) acc := by
  induction ns generalizing acc with
  | nil => exact h
  | cons n ns ih => exact ih (mem_insertKey_of_mem _ h)

theorem mem_innerFold_self {acc : List Text} (f : Text → Text)
    {ns : List Text} {n : Text} (h : n ∈ ns) :
    f n ∈ ns.foldl (fun ex x => insertKey ex (f x)) acc := by
  induction ns generalizing acc with
  | nil => cases h
  | cons x ns ih =>
    rcases List.mem_cons.mp h with rfl | h
    · exact mem_innerFold f ns (mem_insertKey_self _ _)
    · exact ih h

theorem seed_mono {l : List (Text × List Text)} {acc : List Text} {a : Text}
    (h : a ∈ acc) :
    a ∈ l.foldl (fun acc p =>
      p.2.foldl (fun ex n => insertKey ex (mkKey p.1 n)) (insertKey acc p.1)) acc := by
  induction l generalizing acc with
  | nil => exact h
  | cons p rest ih =>
    simp only [List.foldl_cons]
    exact ih (mem_innerFold _ p.2 (mem_insertKey_of_mem _ h))

theorem seed_mem {l : List (Text × List Text)} {acc : List Text}
    {m : Text} {ns : List Text} (h : (m, ns) ∈ l) :
    m ∈ l.foldl (fun acc p =>
      p.2.foldl (fun ex n => insertKey ex (mkKey p.1 n)) (insertKey acc p.1)) acc ∧
    ∀ n ∈ ns, mkKey m n ∈ l.foldl (fun acc p =>
      p.2.foldl (fun ex n => insertKey ex (mkKey p.1 n)) (insertKey acc p.1)) acc := by
  induction l generalizing acc with
  | nil => cases h
  | cons p rest ih =>
    simp only [List.foldl_cons]
    rcases List.mem_cons.mp h with heq | h
    · subst heq
      constructor
      · exact seed_mono (mem_innerFold _ _ (mem_insertKey_self _ _))
      · intro n hn
        exact seed_mono (mem_innerFold_self _ hn)
    · exact ih h

theorem seed_inv (rf : RouterFile) (h : wfRouterFile rf) :
    InvRF rf (seedExisting rf.imports) := by
  refine ⟨h, ?_, ?_⟩
  · rintro ⟨m, ns⟩ hmem
    exact (@seed_mem rf.imports [] m ns hmem).1
  · rintro ⟨m, n⟩ hq
    obtain ⟨ns, hmem, hn⟩ := mem_pairsOf.mp hq
    exact (@seed_mem rf.imports [] m ns hmem).2 n hn

theorem imports_regexInjectFile (fileContent : Text) (rf : RouterFile) :
    (regexInjectFile fileContent rf).imports =
      (processPairs (regexExtractedPairs fileContent)
        (rf, seedExisting rf.imports)).1.imports := by
  simp only [regexInjectFile]
  split <;> rfl

/-- Well-formedness of the import section is preserved by one regex file
injection. -/
theorem regexInjectFile_wf {fileContent : Text} {rf : RouterFile}
    (h : wfRouterFile rf) : wfRouterFile (regexInjectFile fileContent rf) := by
  have hinv := (@processPairs_inv (regexExtractedPairs fileContent)
    (rf, seedExisting rf.imports) (seed_inv rf h)).1.1
  have himp := imports_regexInjectFile fileContent rf
  unfold wfRouterFile at *
  rw [himp]
  exact hinv

/-- Claim C1: for every injected file, every (module specifier, named
import) pair of the app-router file after injection was either already
present or extracted from the injected file, the injected module specifiers
never produce two import declarations with the same module specifier, no
declaration ends up with a duplicated named import, and well-formedness is
preserved across a whole `injectFilesContent` run. -/
theorem c1_import_dedup (fileContent : Text) (rf : RouterFile)
    (h : wfRouterFile rf) :
    wfRouterFile (regexInjectFile fileContent rf) ∧
    (∀ q ∈ pairsOf (regexInjectFile fileContent rf),
      q ∈ pairsOf rf ∨ q ∈ regexExtractedPairs fileContent) ∧
    (∀ (I P : Type) (env : GenEnv I P) (fps : List Text) (rf2 : RouterFile),
      wfRouterFile rf2 → wfRouterFile (injectFilesContent env fps rf2).1) := by
  refine ⟨regexInjectFile_wf h, ?_, ?_⟩
  · intro q hq
    have hprov := (@processPairs_inv (regexExtractedPairs fileContent)
      (rf, seedExisting rf.imports) (seed_inv rf h)).2
    have himp := imports_regexInjectFile fileContent rf
    apply hprov
    unfold pairsOf at hq ⊢
    rw [← himp]
    exact hq
  · intro I P env fps rf2 h2
    have hone : ∀ (al : List (Text × List Text)) (b : Text) (rf' : RouterFile)
        (fp : Text), wfRouterFile rf' → wfRouterFile (injectOne env al b rf' fp) := by
      intro al b rf' fp hwf
      simp only [injectOne]
      split
      · split
        · exact hwf
        · exact regexInjectFile_wf hwf
      · exact hwf
    have hfold : ∀ (al : List (Text × List Text)) (b : Text) (l : List Text)
        (rf' : RouterFile), wfRouterFile rf' →
        wfRouterFile (l.foldl (injectOne env al b) rf') := by
      intro al b l
      induction l with
      | nil => exact fun rf' hwf => hwf
      | cons fp l ih =>
        intro rf' hwf
        exact ih _ (hone al b rf' fp hwf)
    unfold injectFilesContent
    split
    · exact h2
    · split
      · exact h2
      · split
        · exact h2
        · exact hfold _ _ fps rf2 h2

/-- Witness for C1 at a concrete injected file and a concrete well-formed
app-router file that already imports one of the extracted pairs. -/
theorem c1_import_dedup_witness :
    wfRouterFile (regexInjectFile ("import \x7b a, b \x7d from \x27m\x27;\n").toList
      (RouterFile.mk [("m".toList, ["a".toList])] [])) :=
  (c1_import_dedup ("import \x7b a, b \x7d from \x27m\x27;\n").toList
    (RouterFile.mk [("m".toList, ["a".toList])] []) (by decide)).1

/-! ## Claim C10: `findTsConfigFile` termination and nearest-ancestor search

For a relative start path the walk gets stuck: Node `path.dirname` maps a
bare segment to `.` and `.` to itself, while the root computed by
`path.parse` for a relative path is the empty string, so the loop guard
`currentDir !== root` never fails and the loop runs forever when no
tsconfig is found.  For absolute start paths the walk terminates and
returns the nearest non-root ancestor holding a tsconfig. -/

theorem findTsLoop_dot_none :
    ∀ fuel, findTsLoop (fun _ => false) [] fuel ['.'] = none
  | 0 => rfl
  | fuel + 1 => by
    have hd : dirname ['.'] = ['.'] := by decide
    unfold findTsLoop
    rw [if_neg (by decide), if_neg (by simp), hd]
    exact findTsLoop_dot_none fuel

theorem findTsConfig_rel_none :
    ∀ fuel, findTsConfigFile (fun _ => false) ("a/b".toList) fuel = none := by
  intro fuel
  have hd : dirname ("a/b".toList) = ['a'] := by decide
  have hd2 : dirname ['a'] = ['.'] := by decide
  have hroot : parseRoot ['a'] = [] := by decide
  simp only [findTsConfigFile]
  rw [hd, hroot]
  cases fuel with
  | zero => rfl
  | succ fuel =>
    unfold findTsLoop
    rw [if_neg (by decide), if_neg (by simp), hd2]
    exact findTsLoop_dot_none fuel

/-- Counterexample to claim C10 as stated: `findTsConfigFile` does not
terminate for every start path.  Started from the relative path `a/b` over
a file system with no tsconfig anywhere, the loop never returns, whatever
fuel it is given. -/
theorem c10_counterexample :
    ¬ ∃ fuel r, findTsConfigFile (fun _ => false) ("a/b".toList) fuel = some r := by
  rintro ⟨fuel, r, h⟩
  rw [findTsConfig_rel_none fuel] at h
  cases h

theorem dirname_isAbsolute {p : Text} (hp : isAbsolutePath p = true) :
    isAbsolutePath (dirname p) = true := by
  obtain ⟨c, t, rfl⟩ : ∃ c t, p = c :: t := by
    cases p with
    | nil => simp [isAbsolutePath] at hp
    | cons c t => exact ⟨c, t, rfl⟩
  have hc : c = '/' := by simpa [isAbsolutePath] using hp
  subst hc
  simp only [dirname]
  rw [if_neg (List.cons_ne_nil _ _)]
  split
  · rw [if_pos (show ('/' :: t).head? = some '/' from rfl)]; rfl
  · split
    · rfl
    · rename_i hq2 hlen
      rcases hn : ((('/' :: t).reverse.take (('/' :: t).length - 1)).dropWhile
          (fun c => c = '/')).dropWhile (fun c => c ≠ '/') with _ | ⟨a, q2t⟩
      · exact absurd hn hq2
      · simp only [List.length_cons, List.take_succ_cons]
        simp [isAbsolutePath]

theorem dirname_length_lt {p : Text} (hp : isAbsolutePath p = true)
    (hne : p ≠ ['/']) : (dirname p).length < p.length := by
  obtain ⟨c, t, rfl⟩ : ∃ c t, p = c :: t := by
    cases p with
    | nil => simp [isAbsolutePath] at hp
    | cons c t => exact ⟨c, t, rfl⟩
  have hc : c = '/' := by simpa [isAbsolutePath] using hp
  subst hc
  have ht : t ≠ [] := by rintro rfl; exact hne rfl
  have htlen : 1 ≤ t.length := List.length_pos.mpr ht
  simp only [dirname]
  rw [if_neg (List.cons_ne_nil _ _)]
  split
  · rw [if_pos (show ('/' :: t).head? = some '/' from rfl)]
    simp only [List.length_cons, List.length_nil]
    omega
  · split
    · rename_i hq2 hand
      obtain ⟨-, hlen1⟩ := hand
      -- here the path must have at least three characters
      rcases t with _ | ⟨c2, t2⟩
      · exact absurd rfl ht
      · rcases t2 with _ | ⟨c3, t3⟩
        · -- p = ['/', c2]: the scanned tail is the singleton [c2], whose
          -- double dropWhile is always empty
          exfalso
          revert hlen1
          by_cases h2 : c2 = '/' <;>
            simp [h2, List.reverse_cons, List.dropWhile]
        · simp only [List.length_cons, List.length_nil]
          omega
    · rename_i hq2 hand
      have hlen : (((('/' :: t).reverse.take (('/' :: t).length - 1)).dropWhile
          (fun c => c = '/')).dropWhile (fun c => c ≠ '/')).length
          ≤ ('/' :: t).length - 1 := by
        calc (((('/' :: t).reverse.take (('/' :: t).length - 1)).dropWhile
              (fun c => c = '/')).dropWhile (fun c => c ≠ '/')).length
            ≤ ((('/' :: t).reverse.take (('/' :: t).length - 1)).dropWhile
              (fun c => c = '/')).length := (List.dropWhile_sublist _).length_le
          _ ≤ (('/' :: t).reverse.take (('/' :: t).length - 1)).length :=
              (List.dropWhile_sublist _).length_le
          _ ≤ ('/' :: t).length - 1 := by
              rw [List.length_take]
              exact min_le_left _ _
      rw [List.length_take]
      simp only [List.length_cons] at *
      omega

theorem findTsLoop_total (f : Text → Bool) (n : Nat) :
    ∀ dir : Text, isAbsolutePath dir = true → dir.length ≤ n →
    (findTsLoop f ['/'] (n + 1) dir).isSome = true := by
  induction n using Nat.strong_induction_on with
  | _ n ih =>
    intro dir habs hlen
    unfold findTsLoop
    by_cases hroot : dir = ['/']
    · simp [hroot]
    · rw [if_neg hroot]
      by_cases hfs : f (pjoin dir tsconfigName) = true
      · simp [hfs]
      · simp only [hfs, Bool.false_eq_true, if_false]
        have hlt := dirname_length_lt habs hroot
        have habs' := dirname_isAbsolute habs
        cases n with
        | zero =>
          have : dir = [] := List.length_eq_zero.mp (Nat.le_zero.mp hlen)
          subst this
          simp [isAbsolutePath] at habs
        | succ m =>
          exact ih m (Nat.lt_succ_self m) (dirname dir) habs' (by omega)

theorem findTsLoop_find (f : Text → Bool) (root : Text) :
    ∀ (fuel : Nat) (dir : Text) (r : Option Text),
    findTsLoop f root fuel dir = some r →
    r = ((dirChain root fuel dir).find? (fun d => f (pjoin d tsconfigName))).map
        (fun d => pjoin d tsconfigName) := by
  intro fuel
  induction fuel with
  | zero => intro dir r h; cases h
  | succ fuel ih =>
    intro dir r h
    unfold findTsLoop at h
    unfold dirChain
    by_cases hroot : dir = root
    · rw [if_pos hroot] at h
      rw [if_pos hroot]
      cases h
      rfl
    · rw [if_neg hroot] at h
      rw [if_neg hroot]
      by_cases hfs : f (pjoin dir tsconfigName) = true
      · rw [if_pos hfs] at h
        cases h
        have hfind : List.find? (fun d => f (pjoin d tsconfigName))
            (dir :: dirChain root fuel (dirname dir)) = some dir := by
          rw [List.find?_cons]
          simp [hfs]
        rw [hfind]
        rfl
      · rw [if_neg hfs] at h
        have hfind : List.find? (fun d => f (pjoin d tsconfigName))
            (dir :: dirChain root fuel (dirname dir))
            = List.find? (fun d => f (pjoin d tsconfigName))
                (dirChain root fuel (dirname dir)) := by
          rw [List.find?_cons]
          simp only [Bool.not_eq_true] at hfs
          simp [hfs]
        rw [hfind]
        exact ih (dirname dir) r h

theorem dirChain_not_root (root : Text) :
    ∀ (fuel : Nat) (dir d : Text), d ∈ dirChain root fuel dir → d ≠ root := by
  intro fuel
  induction fuel with
  | zero => intro dir d h; cases h
  | succ fuel ih =>
    intro dir d h
    unfold dirChain at h
    by_cases hroot : dir = root
    · rw [if_pos hroot] at h; cases h
    · rw [if_neg hroot] at h
      rcases List.mem_cons.mp h with rfl | h
      · exact hroot
      · exact ih (dirname dir) d h

/-- Claim C10 amended: for every absolute start path `findTsConfigFile`
terminates; whenever it returns, its result is the tsconfig.json of the
first directory of the walked ancestor chain that has one; the walked
chain never contains the root directory; and when only the root holds a
tsconfig.json the result is null. -/
theorem c10_amended (fsHas : Text → Bool) (start : Text)
    (habs : isAbsolutePath start = true) :
    (∃ fuel r, findTsConfigFile fsHas start fuel = some r) ∧
    (∀ fuel r, findTsConfigFile fsHas start fuel = some r →
      r = ((dirChain (parseRoot (dirname start)) fuel (dirname start)).find?
            (fun d => fsHas (pjoin d tsconfigName))).map
          (fun d => pjoin d tsconfigName)) ∧
    (∀ fuel d, d ∈ dirChain (parseRoot (dirname start)) fuel (dirname start) →
      d ≠ ['/']) ∧
    ((∀ d, fsHas (pjoin d tsconfigName) = true → d = ['/']) →
      ∀ fuel r, findTsConfigFile fsHas start fuel = some r → r = none) := by
  have habs' : isAbsolutePath (dirname start) = true := dirname_isAbsolute habs
  have hroot : parseRoot (dirname start) = ['/'] := by
    simp [parseRoot, habs']
  refine ⟨?_, ?_, ?_, ?_⟩
  · refine ⟨(dirname start).length + 1, ?_⟩
    have h := findTsLoop_total fsHas (dirname start).length (dirname start) habs'
      (le_refl _)
    rw [← hroot] at h
    simp only [findTsConfigFile]
    exact Option.isSome_iff_exists.mp h
  · intro fuel r h
    simp only [findTsConfigFile] at h
    exact findTsLoop_find fsHas (parseRoot (dirname start)) fuel (dirname start) r h
  · intro fuel d hd
    rw [hroot] at hd
    exact dirChain_not_root _ fuel _ d hd
  · intro honly fuel r h
    simp only [findTsConfigFile] at h
    have hr := findTsLoop_find fsHas (parseRoot (dirname start)) fuel (dirname start) r h
    have hnone : (dirChain (parseRoot (dirname start)) fuel (dirname start)).find?
        (fun d => fsHas (pjoin d tsconfigName)) = none := by
      rw [List.find?_eq_none]
      intro d hd hfs
      have hne : d ≠ ['/'] := by
        rw [hroot] at hd
        exact dirChain_not_root _ fuel _ d hd
      exact hne (honly d hfs)
    rw [hnone] at hr
    exact hr

/-- Witness for the amended C10 at a concrete absolute start path. -/
theorem c10_amended_witness :
    ∃ fuel r, findTsConfigFile (fun p => decide (p = "/a/tsconfig.json".toList))
      ("/a/b.ts".toList) fuel = some r :=
  (c10_amended (fun p => decide (p = "/a/tsconfig.json".toList))
    ("/a/b.ts".toList) (by decide)).1

/-! ## Claim C3: equivalence of the two injection implementations

The regex implementation works on the raw file text, the AST implementation
on the parsed statements; they disagree on any import declaration that is
not of the named form matched by the import regex (default imports,
namespace imports, side-effect imports): the AST implementation recognises
the statement kind and silently drops such an import, while the regex scan
leaves its text in the non-import remainder, which then gets spliced into
the app-router file as a statement. -/

/-- Counterexample to claim C3 as stated: for the injected file consisting
of the single default import `import foo from 'x';`, the AST implementation
adds nothing, while the regex implementation appends the statement text
(with the trailing semicolon cleaned away) to the app-router file. -/
theorem c3_counterexample :
    ¬ (∀ (stmts : List Stmt) (rf : RouterFile), wfRouterFile rf →
      pairsOf (regexInjectFile (renderFile stmts) rf) = pairsOf (astInjectFile stmts rf) ∧
      (regexInjectFile (renderFile stmts) rf).statements
        = (astInjectFile stmts rf).statements) := by
  intro h
  have hc := h [⟨true, ("import foo from \x27x\x27;").toList⟩] emptyRouterFile
    (by decide)
  exact absurd hc.2 (by decide)

theorem dropLit_append (lit rest : Text) : dropLit lit (lit ++ rest) = some rest := by
  unfold dropLit
  rw [if_pos]
  · rw [List.drop_left]
  · exact List.isPrefixOf_iff_prefix.mpr (List.prefix_append _ _)

theorem drop_takeWhile_length (p : Char → Bool) (s : Text) :
    s.drop (s.takeWhile p).length = s.dropWhile p := by
  nth_rewrite 2 [← List.takeWhile_append_dropWhile p s]
  rw [List.drop_left]

theorem replaceFirst_append_self (t r : Text) : replaceFirst (t ++ r) t = r := by
  cases t with
  | nil =>
    cases r with
    | nil => rfl
    | cons c r' =>
      show replaceFirst (c :: r') [] = c :: r'
      unfold replaceFirst
      rw [if_pos (by simp [List.isPrefixOf])]
      rfl
  | cons c t' =>
    show replaceFirst (c :: (t' ++ r)) (c :: t') = r
    unfold replaceFirst
    rw [if_pos (List.isPrefixOf_iff_prefix.mpr (by
      show c :: t' <+: c :: t' ++ r
      exact List.prefix_append _ _))]
    simp only [List.length_cons, List.drop_succ_cons]
    exact List.drop_left _ _

theorem dedupKeep_acc_of_nodup :
    ∀ (l : List Text) (acc : List Text), l.Nodup → (∀ a ∈ l, a ∉ acc) →
    l.foldl (fun acc t => if t ∈ acc then acc else acc ++ [t]) acc = acc ++ l := by
  intro l
  induction l with
  | nil => intro acc _ _; simp
  | cons t l ih =>
    intro acc hnd hdis
    simp only [List.foldl_cons]
    rw [if_neg (hdis t (List.mem_cons_self _ _))]
    rw [ih (acc ++ [t]) (List.Nodup.of_cons hnd) ?_]
    · simp
    · intro a ha
      rw [List.mem_append]
      rintro (h | h)
      · exact hdis a (List.mem_cons_of_mem _ ha) h
      · simp only [List.mem_singleton] at h
        subst h
        exact (List.nodup_cons.mp hnd).1 ha

theorem dedupKeep_of_nodup {l : List Text} (h : l.Nodup) : dedupKeep l = l := by
  have := dedupKeep_acc_of_nodup l [] h (by simp)
  simpa [dedupKeep] using this

theorem foldl_replaceFirst_flatten :
    ∀ l : List Text, l.foldl replaceFirst l.flatten = [] := by
  intro l
  suffices h : ∀ (l : List Text), l.foldl replaceFirst l.flatten = [] by exact h l
  intro l
  induction l with
  | nil => rfl
  | cons t l ih =>
    simp only [List.flatten_cons, List.foldl_cons]
    rw [replaceFirst_append_self]
    exact ih

theorem dropWhile_eq_self_of_all {p : Char → Bool} {l : Text}
    (h : ∀ c ∈ l, p c = false) : l.dropWhile p = l := by
  cases l with
  | nil => rfl
  | cons c rest =>
    exact List.dropWhile_cons_of_neg (by simp [h c (List.mem_cons_self _ _)])

theorem mem_joinComma {ns : List Text} {c : Char} (h : c ∈ joinComma ns) :
    (∃ n ∈ ns, c ∈ n) ∨ c = ',' ∨ c = ' ' := by
  induction ns with
  | nil => cases h
  | cons n rest ih =>
    cases rest with
    | nil => exact Or.inl ⟨n, List.mem_cons_self _ _, h⟩
    | cons m rest2 =>
      rw [show joinComma (n :: m :: rest2)
        = n ++ ',' :: ' ' :: joinComma (m :: rest2) from rfl] at h
      rcases List.mem_append.mp h with h | h
      · exact Or.inl ⟨n, List.mem_cons_self _ _, h⟩
      · rcases List.mem_cons.mp h with rfl | h
        · exact Or.inr (Or.inl rfl)
        · rcases List.mem_cons.mp h with rfl | h
          · exact Or.inr (Or.inr rfl)
          · rcases ih h with ⟨n', hn', hc⟩ | h
            · exact Or.inl ⟨n', List.mem_cons_of_mem _ hn', hc⟩
            · exact Or.inr h

theorem splitOnChar_no_sep {sep : Char} : ∀ {xs : Text}, (∀ c ∈ xs, c ≠ sep) →
    splitOnChar sep xs = [xs] := by
  intro xs
  induction xs with
  | nil => intro _; rfl
  | cons c rest ih =>
    intro h
    simp only [splitOnChar]
    rw [if_neg (h c (List.mem_cons_self _ _))]
    rw [ih (fun x hx => h x (List.mem_cons_of_mem _ hx))]

theorem splitOnChar_append_sep {sep : Char} : ∀ (xs ys : Text),
    (∀ c ∈ xs, c ≠ sep) →
    splitOnChar sep (xs ++ sep :: ys) = xs :: splitOnChar sep ys := by
  intro xs ys
  induction xs with
  | nil =>
    intro _
    show splitOnChar sep (sep :: ys) = [] :: splitOnChar sep ys
    simp [splitOnChar]
  | cons c rest ih =>
    intro h
    show splitOnChar sep (c :: (rest ++ sep :: ys)) = (c :: rest) :: splitOnChar sep ys
    simp only [splitOnChar]
    rw [if_neg (h c (List.mem_cons_self _ _)),
      ih (fun x hx => h x (List.mem_cons_of_mem _ hx))]

theorem trimText_pad_left {n : Text} (hne : n ≠ []) (hch : ∀ c ∈ n, jsWs c = false) :
    trimText (' ' :: n) = n := by
  obtain ⟨c, n', rfl⟩ : ∃ c n', n = c :: n' := by
    cases n with
    | nil => exact absurd rfl hne
    | cons c n' => exact ⟨c, n', rfl⟩
  unfold trimText
  rw [List.dropWhile_cons_of_pos (by decide),
    List.dropWhile_cons_of_neg (by simp [hch c (List.mem_cons_self _ _)])]
  rw [dropWhile_eq_self_of_all (fun x hx => hch x (List.mem_reverse.mp hx))]
  exact List.reverse_reverse _

theorem trimText_pad_right {n : Text} (hne : n ≠ [])
    (hch : ∀ c ∈ n, jsWs c = false) : trimText (' ' :: (n ++ [' '])) = n := by
  obtain ⟨c, n', rfl⟩ : ∃ c n', n = c :: n' := by
    cases n with
    | nil => exact absurd rfl hne
    | cons c n' => exact ⟨c, n', rfl⟩
  unfold trimText
  rw [List.dropWhile_cons_of_pos (by decide), List.cons_append,
    List.dropWhile_cons_of_neg (by simp [hch c (List.mem_cons_self _ _)])]
  rw [show (c :: (n' ++ [' '])).reverse = ' ' :: (c :: n').reverse by
    simp]
  rw [List.dropWhile_cons_of_pos (by decide)]
  rw [dropWhile_eq_self_of_all (fun x hx => hch x (List.mem_reverse.mp hx))]
  exact List.reverse_reverse _

theorem splitTrimFilter_joinComma : ∀ (ns : List Text),
    (∀ n ∈ ns, n ≠ [] ∧ ∀ c ∈ n, goodNameChar c) →
    splitTrimFilter (' ' :: (joinComma ns ++ [' '])) = ns := by
  intro ns
  induction ns with
  | nil => intro _; decide
  | cons n rest ih =>
    intro h
    obtain ⟨hne, hch⟩ := h n (List.mem_cons_self _ _)
    have hnws : ∀ c ∈ n, jsWs c = false := fun c hc => (hch c hc).1
    have hnsep : ∀ c ∈ n, c ≠ ',' := fun c hc => (hch c hc).2.1
    cases rest with
    | nil =>
      show splitTrimFilter (' ' :: (n ++ [' '])) = [n]
      unfold splitTrimFilter
      have hsep : ∀ c ∈ ' ' :: (n ++ [' ']), c ≠ ',' := by
        intro c hc
        rcases List.mem_cons.mp hc with rfl | hc
        · decide
        · rcases List.mem_append.mp hc with hc | hc
          · exact hnsep c hc
          · simp only [List.mem_singleton] at hc; subst hc; decide
      rw [splitOnChar_no_sep hsep]
      simp only [List.map_cons, List.map_nil]
      rw [trimText_pad_right hne hnws]
      simp [hne]
    | cons m rest2 =>
      have hsplit : (' ' :: (joinComma (n :: m :: rest2) ++ [' ']))
          = (' ' :: n) ++ ',' :: (' ' :: (joinComma (m :: rest2) ++ [' '])) := by
        show ' ' :: ((n ++ ',' :: ' ' :: joinComma (m :: rest2)) ++ [' ']) = _
        simp [List.append_assoc]
      rw [hsplit]
      unfold splitTrimFilter
      rw [splitOnChar_append_sep (' ' :: n) _ ?hsep2]
      case hsep2 =>
        intro c hc
        rcases List.mem_cons.mp hc with rfl | hc
        · decide
        · exact hnsep c hc
      simp only [List.map_cons]
      rw [trimText_pad_left hne hnws]
      rw [List.filter_cons_of_pos (by simp [hne])]
      have htail := ih (fun x hx => h x (List.mem_cons_of_mem _ hx))
      unfold splitTrimFilter at htail
      rw [htail]

theorem dropWhile_head_stop {p : Char → Bool} {t : Text}
    (h : t = [] ∨ ∃ d t', t = d :: t' ∧ p d = false) : t.dropWhile p = t := by
  rcases h with rfl | ⟨d, t', rfl, hd⟩
  · rfl
  · exact List.dropWhile_cons_of_neg (by simp [hd])

theorem wsPlus_cons_nonws {c d : Char} {t : Text} (hc : jsWs c = true)
    (hd : jsWs d = false) : wsPlus (c :: (d :: t)) = some (d :: t) := by
  show (if jsWs c = true then some ((d :: t).dropWhile jsWs) else none) = some (d :: t)
  rw [if_pos hc, List.dropWhile_cons_of_neg (by simp [hd])]

theorem dropLit_from (X : Text) :
    dropLit (("from").toList) ('f' :: ('r' :: ('o' :: ('m' :: X)))) = some X := by
  have h : 'f' :: ('r' :: ('o' :: ('m' :: X))) = ("from").toList ++ X := rfl
  rw [h, dropLit_append]

/-- Character facts about the rendered named-import group. -/
theorem joinComma_chars {ns : List Text}
    (hns : ∀ n ∈ ns, n ≠ [] ∧ ∀ c ∈ n, goodNameChar c) :
    ∀ c ∈ joinComma ns,
      c ≠ lbraceChar ∧ c ≠ rbraceChar ∧ isQuote c = false := by
  intro c hc
  rcases mem_joinComma hc with ⟨n, hn, hcn⟩ | rfl | rfl
  · have := (hns n hn).2 c hcn
    exact ⟨this.2.2.1, this.2.2.2.1, this.2.2.2.2⟩
  · refine ⟨by decide, by decide, by decide⟩
  · refine ⟨by decide, by decide, by decide⟩

/-- Matching the import regex at the start of a canonical import statement
followed by a newline succeeds, captures the padded name group and the
module specifier, consumes the statement with its newline, and leaves the
rest (which must be empty or start with the letter i of the next canonical
import, so that the trailing whitespace repetition stops). -/
theorem matchImportAt_canonical {m : Text} {ns : List Text} {rest : Text}
    (hg : goodImport (m, ns)) (hrest : rest.dropWhile jsWs = rest) :
    matchImportAt (renderImport (m, ns) ++ '\n' :: rest)
      = some (renderImport (m, ns) ++ ['\n'], ' ' :: (joinComma ns ++ [' ']), m, rest) := by
  obtain ⟨hmne, hmq, hnsne, hns⟩ := hg
  have hJ := joinComma_chars hns
  have h1 : ("import \x7b ").toList
      = 'i' :: ('m' :: ('p' :: ('o' :: ('r' :: ('t' :: (' ' :: (lbraceChar ::
        [' ']))))))) := by decide
  have h2 : (" \x7d from \x27").toList
      = ' ' :: (rbraceChar :: (' ' :: ('f' :: ('r' :: ('o' :: ('m' :: (' ' ::
        [squoteChar]))))))) := by decide
  have h3 : ("\x27;").toList = squoteChar :: [';'] := by decide
  have h6 : ("import").toList = ['i', 'm', 'p', 'o', 'r', 't'] := by decide
  have hshape : renderImport (m, ns) ++ '\n' :: rest
      = ("import").toList ++ (' ' :: (lbraceChar ::
          ((' ' :: (joinComma ns ++ [' '])) ++ (rbraceChar ::
          (' ' :: ('f' :: ('r' :: ('o' :: ('m' :: (' ' :: (squoteChar ::
          (m ++ (squoteChar :: (';' :: ('\n' :: rest))))))))))))))) := by
    show (("import \x7b ").toList ++ joinComma ns ++ (" \x7d from \x27").toList
        ++ m ++ ("\x27;").toList) ++ '\n' :: rest = _
    rw [h1, h2, h3, h6]
    simp [List.append_assoc]
  unfold matchImportAt
  rw [hshape, dropLit_append]
  simp only
  rw [wsPlus_cons_nonws (by decide) (by decide)]
  simp only
  rw [if_pos trivial]
  have hJall : ∀ c ∈ ' ' :: (joinComma ns ++ [' ']),
      (fun c => decide (c ≠ rbraceChar)) c = true := by
    intro c hc
    rcases List.mem_cons.mp hc with rfl | hc
    · decide
    · rcases List.mem_append.mp hc with hc | hc
      · simp [(hJ c hc).2.1]
      · simp only [List.mem_singleton] at hc; subst hc; decide
  have hnt : ((' ' :: (joinComma ns ++ [' '])) ++ (rbraceChar ::
        (' ' :: ('f' :: ('r' :: ('o' :: ('m' :: (' ' :: (squoteChar ::
        (m ++ (squoteChar :: (';' :: ('\n' :: rest))))))))))))).takeWhile
        (fun c => c ≠ rbraceChar)
      = ' ' :: (joinComma ns ++ [' ']) := by
    rw [List.takeWhile_append_of_pos hJall,
      List.takeWhile_cons_of_neg (by simp)]
    simp
  rw [hnt, List.drop_left]
  simp only
  rw [if_pos trivial]
  rw [wsPlus_cons_nonws (by decide) (by decide)]
  simp only
  rw [dropLit_from]
  simp only
  rw [wsPlus_cons_nonws (by decide) (by decide)]
  simp only
  rw [if_pos (show isQuote squoteChar = true by decide)]
  have hmall : ∀ c ∈ m, (fun c => decide (¬ isQuote c = true)) c = true := by
    intro c hc
    simp [hmq c hc]
  have hmd : (m ++ (squoteChar :: (';' :: ('\n' :: rest)))).takeWhile
      (fun c => ¬ isQuote c) = m := by
    rw [List.takeWhile_append_of_pos hmall,
      List.takeWhile_cons_of_neg (by simp [isQuote])]
    simp
  rw [hmd, if_neg hmne, List.drop_left]
  simp only
  rw [if_pos (show isQuote squoteChar = true by decide)]
  rw [if_pos trivial]
  rw [List.dropWhile_cons_of_pos (by decide), hrest]
  have hback : ("import").toList ++ (' ' :: (lbraceChar ::
      ((' ' :: (joinComma ns ++ [' '])) ++ (rbraceChar ::
      (' ' :: ('f' :: ('r' :: ('o' :: ('m' :: (' ' :: (squoteChar ::
      (m ++ (squoteChar :: (';' :: ('\n' :: rest)))))))))))))))
      = (renderImport (m, ns) ++ ['\n']) ++ rest := by
    rw [← hshape]
    simp
  rw [hback, List.length_append, Nat.add_sub_cancel, List.take_left]

theorem renderImport_head (p : Text × List Text) :
    renderImport p = 'i' :: (("mport \x7b ").toList ++ joinComma p.2
      ++ (" \x7d from \x27").toList ++ p.1 ++ ("\x27;").toList) := rfl

theorem renderFile_canon_cons (p : Text × List Text) (imps : List (Text × List Text)) :
    renderFile ((p :: imps).map canonImportStmt)
      = renderImport p ++ '\n' :: renderFile (imps.map canonImportStmt) := by
  simp [renderFile, canonImportStmt, List.flatMap_cons]

theorem renderFile_canon_dropWhile (imps : List (Text × List Text)) :
    (renderFile (imps.map canonImportStmt)).dropWhile jsWs
      = renderFile (imps.map canonImportStmt) := by
  cases imps with
  | nil => rfl
  | cons q imps2 =>
    rw [renderFile_canon_cons, renderImport_head, List.cons_append]
    exact List.dropWhile_cons_of_neg (by decide)

theorem scanGo_succ_cons (fuel : Nat) (c : Char) (rest : Text) :
    scanGo (fuel + 1) (c :: rest)
      = match matchImportAt (c :: rest) with
        | some (matched, nt, md, rem) => (matched, nt, md) :: scanGo fuel rem
        | none => scanGo fuel rest := rfl

/-- Scanning the rendered text of a canonical all-import file finds exactly
the statements, in order, capturing their padded name groups and module
specifiers. -/
theorem scanGo_canonical : ∀ (imps : List (Text × List Text)) (fuel : Nat),
    (∀ p ∈ imps, goodImport p) →
    (renderFile (imps.map canonImportStmt)).length ≤ fuel →
    scanGo fuel (renderFile (imps.map canonImportStmt))
      = imps.map (fun p =>
          (renderImport p ++ ['\n'], ' ' :: (joinComma p.2 ++ [' ']), p.1)) := by
  intro imps
  induction imps with
  | nil => intro fuel _ _; cases fuel <;> rfl
  | cons p imps ih =>
    intro fuel hgood hlen
    rw [renderFile_canon_cons] at hlen ⊢
    have hgp : goodImport p := hgood p (List.mem_cons_self _ _)
    cases fuel with
    | zero => simp at hlen
    | succ f =>
      obtain ⟨tail, htail⟩ : ∃ t,
          renderImport p ++ '\n' :: renderFile (imps.map canonImportStmt)
            = 'i' :: t := by
        rw [renderImport_head, List.cons_append]
        exact ⟨_, rfl⟩
      rw [htail, scanGo_succ_cons, ← htail]
      rw [matchImportAt_canonical (by
          obtain ⟨a, b⟩ := p
          exact hgp) (renderFile_canon_dropWhile imps)]
      simp only [List.map_cons]
      rw [ih f (fun q hq => hgood q (List.mem_cons_of_mem _ hq)) ?hflen]
      case hflen =>
        rw [List.length_append, List.length_cons] at hlen
        omega

theorem matchBracesAt_cons_none {c : Char} {rest : Text} (h : c ≠ lbraceChar) :
    matchBracesAt (c :: rest) = none := by
  simp only [matchBracesAt]
  rw [if_neg h]

theorem extractBracesGo_succ_cons (fuel : Nat) (c : Char) (rest : Text) :
    extractBracesGo (fuel + 1) (c :: rest)
      = match matchBracesAt (c :: rest) with
        | some nt => some nt
        | none => extractBracesGo fuel rest := rfl

theorem extractBracesGo_skip : ∀ (pre s : Text) (fuel : Nat),
    (∀ c ∈ pre, c ≠ lbraceChar) →
    extractBracesGo (pre.length + fuel) (pre ++ s) = extractBracesGo fuel s := by
  intro pre
  induction pre with
  | nil => intro s fuel _; simp
  | cons c pre ih =>
    intro s fuel h
    have hl : (c :: pre).length + fuel = (pre.length + fuel) + 1 := by
      simp [Nat.add_right_comm]
    rw [hl, List.cons_append, extractBracesGo_succ_cons,
      matchBracesAt_cons_none (h c (List.mem_cons_self _ _))]
    exact ih s fuel (fun x hx => h x (List.mem_cons_of_mem _ hx))

/-- The named-imports extraction of the AST implementation recovers the
padded name group from a canonical import statement. -/
theorem extractBraces_canonical {m : Text} {ns : List Text}
    (hg : goodImport (m, ns)) :
    extractBraces (renderImport (m, ns)) = some (' ' :: (joinComma ns ++ [' '])) := by
  obtain ⟨hmne, hmq, hnsne, hns⟩ := hg
  have hJ := joinComma_chars hns
  have h1 : ("import \x7b ").toList
      = ("import ").toList ++ (lbraceChar :: [' ']) := by decide
  have h2 : (" \x7d from \x27").toList
      = ' ' :: (rbraceChar :: (' ' :: ('f' :: ('r' :: ('o' :: ('m' :: (' ' ::
        [squoteChar]))))))) := by decide
  have hshape : renderImport (m, ns)
      = ("import ").toList ++ (lbraceChar ::
          ((' ' :: (joinComma ns ++ [' '])) ++ (rbraceChar ::
          (' ' :: ('f' :: ('r' :: ('o' :: ('m' :: (' ' :: (squoteChar ::
          (m ++ (squoteChar :: [';'])))))))))))) := by
    show ("import \x7b ").toList ++ joinComma ns ++ (" \x7d from \x27").toList
        ++ m ++ ("\x27;").toList = _
    rw [h1, h2, show ("\x27;").toList = squoteChar :: [';'] from by decide]
    simp [List.append_assoc]
  unfold extractBraces
  rw [hshape, List.length_append,
    show ("import ").toList.length = 7 from by decide]
  rw [show (7 : Nat) + (lbraceChar ::
      ((' ' :: (joinComma ns ++ [' '])) ++ (rbraceChar ::
      (' ' :: ('f' :: ('r' :: ('o' :: ('m' :: (' ' :: (squoteChar ::
      (m ++ (squoteChar :: [';'])))))))))))).length
      = ("import ").toList.length + (lbraceChar ::
      ((' ' :: (joinComma ns ++ [' '])) ++ (rbraceChar ::
      (' ' :: ('f' :: ('r' :: ('o' :: ('m' :: (' ' :: (squoteChar ::
      (m ++ (squoteChar :: [';'])))))))))))).length from by
    rw [show ("import ").toList.length = 7 from by decide]]
  rw [extractBracesGo_skip _ _ _ (by decide)]
  rw [List.length_cons, extractBracesGo_succ_cons]
  have hJall : ∀ c ∈ ' ' :: (joinComma ns ++ [' ']),
      (fun c => decide (c ≠ rbraceChar)) c = true := by
    intro c hc
    rcases List.mem_cons.mp hc with rfl | hc
    · decide
    · rcases List.mem_append.mp hc with hc | hc
      · simp [(hJ c hc).2.1]
      · simp only [List.mem_singleton] at hc; subst hc; decide
  have hnt : ((' ' :: (joinComma ns ++ [' '])) ++ (rbraceChar ::
        (' ' :: ('f' :: ('r' :: ('o' :: ('m' :: (' ' :: (squoteChar ::
        (m ++ (squoteChar :: [';']))))))))))).takeWhile
        (fun c => c ≠ rbraceChar)
      = ' ' :: (joinComma ns ++ [' ']) := by
    rw [List.takeWhile_append_of_pos hJall,
      List.takeWhile_cons_of_neg (by simp)]
    simp
  have hmb : matchBracesAt (lbraceChar ::
      ((' ' :: (joinComma ns ++ [' '])) ++ (rbraceChar ::
      (' ' :: ('f' :: ('r' :: ('o' :: ('m' :: (' ' :: (squoteChar ::
      (m ++ (squoteChar :: [';']))))))))))))
      = some (' ' :: (joinComma ns ++ [' '])) := by
    simp only [matchBracesAt]
    rw [if_pos trivial, hnt, List.drop_left]
    simp only
    rw [if_pos trivial]
  rw [hmb]

theorem matchFromAt_eq_none_of_prefix_fail {s : Text}
    (h : (("from").toList).isPrefixOf s = false) : matchFromAt s = none := by
  have hd : dropLit (("from").toList) s = none := by
    unfold dropLit
    rw [if_neg (by rw [h]; simp)]
  unfold matchFromAt
  rw [hd]

theorem wsPlus_none {c : Char} {rest : Text} (hc : jsWs c = false) :
    wsPlus (c :: rest) = none := by
  simp only [wsPlus]
  rw [if_neg (by simp [hc])]

theorem wsPlus_head_ws {c : Char} {rest : Text} (hc : jsWs c = true) :
    wsPlus (c :: rest) = some (rest.dropWhile jsWs) := by
  simp only [wsPlus]
  rw [if_pos hc]

/-- Matching the module-specifier regex of the AST implementation fails at
every position whose text is a quote-free segment followed by the closing
space-brace-space of the canonical named-import group: the whitespace
repetition after a possible `from` inside the names can never end right
before a quote, because the first non-whitespace character it meets is a
name character, a comma, or the closing brace. -/
theorem matchFromAt_seg_none (v C : Text) (hv : ∀ c ∈ v, isQuote c = false) :
    matchFromAt (v ++ (' ' :: (rbraceChar :: (' ' :: C)))) = none := by
  rcases v with _ | ⟨a, v⟩
  · exact matchFromAt_eq_none_of_prefix_fail (by simp [List.isPrefixOf])
  rcases v with _ | ⟨b, v⟩
  · exact matchFromAt_eq_none_of_prefix_fail (by simp [List.isPrefixOf])
  rcases v with _ | ⟨c, v⟩
  · exact matchFromAt_eq_none_of_prefix_fail (by simp [List.isPrefixOf])
  rcases v with _ | ⟨d, v⟩
  · exact matchFromAt_eq_none_of_prefix_fail (by simp [List.isPrefixOf])
  by_cases ha : a = 'f'
  case neg =>
    refine matchFromAt_eq_none_of_prefix_fail ?_
    simp [List.isPrefixOf, beq_iff_eq]
    intro h
    exact absurd h.symm ha
  subst ha
  by_cases hb : b = 'r'
  case neg =>
    refine matchFromAt_eq_none_of_prefix_fail ?_
    simp [List.isPrefixOf, beq_iff_eq]
    intro h
    exact absurd h.symm hb
  subst hb
  by_cases hc : c = 'o'
  case neg =>
    refine matchFromAt_eq_none_of_prefix_fail ?_
    simp [List.isPrefixOf, beq_iff_eq]
    intro h
    exact absurd h.symm hc
  subst hc
  by_cases hd : d = 'm'
  case neg =>
    refine matchFromAt_eq_none_of_prefix_fail ?_
    simp [List.isPrefixOf, beq_iff_eq]
    intro h
    exact absurd h.symm hd
  subst hd
  have hvq : ∀ x ∈ v, isQuote x = false := by
    intro x hx
    exact hv x (by simp [hx])
  unfold matchFromAt
  rw [show ('f' :: 'r' :: 'o' :: 'm' :: v) ++ (' ' :: (rbraceChar :: (' ' :: C)))
      = 'f' :: ('r' :: ('o' :: ('m' :: (v ++ (' ' :: (rbraceChar :: (' ' :: C)))))))
    from by simp]
  rw [dropLit_from]
  simp only
  rcases v with _ | ⟨x, v'⟩
  · rw [List.nil_append, wsPlus_cons_nonws (by decide) (by decide)]
    simp only
    rw [if_neg (by decide)]
  by_cases hx : jsWs x = true
  · rw [List.cons_append, wsPlus_head_ws hx]
    rcases hvw : v'.dropWhile jsWs with _ | ⟨e, r⟩
    · have hdw : (v' ++ (' ' :: (rbraceChar :: (' ' :: C)))).dropWhile jsWs
          = rbraceChar :: (' ' :: C) := by
        rw [List.dropWhile_append]
        simp only [hvw, List.isEmpty_nil, if_true]
        rw [List.dropWhile_cons_of_pos (by decide),
          List.dropWhile_cons_of_neg (by decide)]
      rw [hdw]
      simp only
      rw [if_neg (by decide)]
    · have hdw : (v' ++ (' ' :: (rbraceChar :: (' ' :: C)))).dropWhile jsWs
          = (e :: r) ++ (' ' :: (rbraceChar :: (' ' :: C))) := by
        rw [List.dropWhile_append]
        simp [hvw]
      rw [hdw]
      simp only [List.cons_append]
      have he : isQuote e = false := by
        have : e ∈ v'.dropWhile jsWs := by rw [hvw]; exact List.mem_cons_self _ _
        have : e ∈ v' := (List.dropWhile_sublist jsWs).subset this
        exact hvq e (List.mem_cons_of_mem _ this)
      rw [if_neg (by simp [he])]
  · rw [List.cons_append, wsPlus_none (by simpa using hx)]

theorem extractFromGo_succ_cons (fuel : Nat) (c : Char) (rest : Text) :
    extractFromGo (fuel + 1) (c :: rest)
      = match matchFromAt (c :: rest) with
        | some md => some md
        | none => extractFromGo fuel rest := rfl

theorem extractFromGo_skip : ∀ (pre s : Text) (fuel : Nat),
    (∀ u v, pre = u ++ v → v ≠ [] → matchFromAt (v ++ s) = none) →
    extractFromGo (pre.length + fuel) (pre ++ s) = extractFromGo fuel s := by
  intro pre
  induction pre with
  | nil => intro s fuel _; simp
  | cons c pre ih =>
    intro s fuel h
    have h0 : matchFromAt ((c :: pre) ++ s) = none :=
      h [] (c :: pre) rfl (List.cons_ne_nil _ _)
    have hl : (c :: pre).length + fuel = (pre.length + fuel) + 1 := by
      simp [Nat.add_right_comm]
    rw [hl, List.cons_append, extractFromGo_succ_cons]
    rw [show matchFromAt (c :: (pre ++ s)) = none from h0]
    exact ih s fuel (fun u v huv hv => h (c :: u) v (by rw [huv]; rfl) hv)

/-- The module-specifier extraction of the AST implementation recovers the
module from a canonical import statement: the first position at which the
regex matches is the real `from` keyword. -/
theorem extractFrom_canonical {m : Text} {ns : List Text}
    (hg : goodImport (m, ns)) :
    extractFrom (renderImport (m, ns)) = some m := by
  obtain ⟨hmne, hmq, hnsne, hns⟩ := hg
  have hJ := joinComma_chars hns
  have hP0 : ∀ c ∈ ("import \x7b ").toList ++ joinComma ns, isQuote c = false := by
    intro c hc
    rcases List.mem_append.mp hc with hc | hc
    · rw [show ("import \x7b ").toList
        = ['i', 'm', 'p', 'o', 'r', 't', ' ', lbraceChar, ' '] from by decide] at hc
      exact (by decide :
        ∀ x ∈ (['i', 'm', 'p', 'o', 'r', 't', ' ', lbraceChar, ' '] : Text),
          isQuote x = false) c hc
    · exact (hJ c hc).2.2
  have hshape : renderImport (m, ns)
      = ((("import \x7b ").toList ++ joinComma ns) ++ [' ', rbraceChar, ' '])
        ++ ('f' :: ('r' :: ('o' :: ('m' :: (' ' :: (squoteChar ::
            (m ++ (squoteChar :: [';'])))))))) := by
    show ("import \x7b ").toList ++ joinComma ns ++ (" \x7d from \x27").toList
        ++ m ++ ("\x27;").toList = _
    rw [show (" \x7d from \x27").toList
      = ' ' :: (rbraceChar :: (' ' :: ('f' :: ('r' :: ('o' :: ('m' :: (' ' ::
        [squoteChar]))))))) from by decide,
      show ("\x27;").toList = squoteChar :: [';'] from by decide]
    simp [List.append_assoc]
  have hskip : ∀ u v,
      (("import \x7b ").toList ++ joinComma ns) ++ [' ', rbraceChar, ' '] = u ++ v →
      v ≠ [] →
      matchFromAt (v ++ ('f' :: ('r' :: ('o' :: ('m' :: (' ' :: (squoteChar ::
        (m ++ (squoteChar :: [';']))))))))) = none := by
    intro u v huv hvne
    rcases List.append_eq_append_iff.mp huv.symm with ⟨w, hw1, hw2⟩ | ⟨w, hw1, hw2⟩
    · -- v = w ++ the closing space-brace-space
      subst hw2
      rw [List.append_assoc]
      exact matchFromAt_seg_none w _ (fun c hc => hP0 c (by rw [hw1]; simp [hc]))
    · -- v is a suffix of the closing space-brace-space
      rcases w with _ | ⟨x1, w⟩
      · simp only [List.nil_append] at hw2
        subst hw2
        exact matchFromAt_seg_none [] _ (by simp)
      rcases w with _ | ⟨x2, w⟩
      · obtain ⟨hx1, hv⟩ := List.cons.injEq .. ▸ hw2.symm
        subst hv
        exact matchFromAt_eq_none_of_prefix_fail (by simp [List.isPrefixOf])
      rcases w with _ | ⟨x3, w⟩
      · obtain ⟨hx1, hrest⟩ := List.cons.injEq .. ▸ hw2.symm
        obtain ⟨hx2, hv⟩ := List.cons.injEq .. ▸ hrest
        subst hv
        exact matchFromAt_eq_none_of_prefix_fail (by simp [List.isPrefixOf])
      · exfalso
        have hlen := congrArg List.length hw2
        simp only [List.length_cons, List.length_append, List.length_nil] at hlen
        have hv0 : v.length = 0 := by omega
        exact hvne (List.length_eq_zero.mp hv0)
  unfold extractFrom
  rw [hshape, List.length_append]
  rw [extractFromGo_skip _ _ _ hskip]
  rw [List.length_cons, extractFromGo_succ_cons]
  have hmC : matchFromAt ('f' :: ('r' :: ('o' :: ('m' :: (' ' :: (squoteChar ::
      (m ++ (squoteChar :: [';'])))))))) = some m := by
    unfold matchFromAt
    rw [dropLit_from]
    simp only
    rw [wsPlus_cons_nonws (by decide) (by decide)]
    simp only
    rw [if_pos (show isQuote squoteChar = true by decide)]
    have hmall : ∀ c ∈ m, (fun c => decide (¬ isQuote c = true)) c = true := by
      intro c hc
      simp [hmq c hc]
    have hmd : (m ++ (squoteChar :: [';'])).takeWhile (fun c => ¬ isQuote c) = m := by
      rw [List.takeWhile_append_of_pos hmall,
        List.takeWhile_cons_of_neg (by simp [isQuote])]
      simp
    rw [hmd, if_neg hmne, List.drop_left]
    simp only
    rw [if_pos (show isQuote squoteChar = true by decide)]
  rw [hmC]

theorem processPairs_append (a b : List (Text × Text)) (st : RouterFile × List Text) :
    processPairs (a ++ b) st = processPairs b (processPairs a st) := by
  unfold processPairs
  exact List.foldl_append _ _ _ _

/-- On a canonical all-import file the AST implementation reduces to the
shared deduplication fold over all extracted pairs. -/
theorem astInjectFile_canonical : ∀ (imps : List (Text × List Text))
    (st : RouterFile × List Text), (∀ p ∈ imps, goodImport p) →
    (imps.map canonImportStmt).foldl
      (fun (st : RouterFile × List Text) stmt =>
        if stmt.isImport then
          let md := (extractFrom stmt.text).getD []
          let nt := (extractBraces stmt.text).getD []
          processPairs ((splitTrimFilter nt).map (fun n => (md, n))) st
        else
          ({ st.1 with statements := st.1.statements ++ [stmt.text] }, st.2)) st
      = processPairs (imps.flatMap (fun p => p.2.map (fun n => (p.1, n)))) st := by
  intro imps
  induction imps with
  | nil => intro st _; rfl
  | cons p imps ih =>
    intro st hgood
    have hgp : goodImport p := hgood p (List.mem_cons_self _ _)
    obtain ⟨m, ns⟩ := p
    simp only [List.map_cons, List.foldl_cons, List.flatMap_cons, canonImportStmt]
    rw [processPairs_append]
    rw [if_pos trivial]
    rw [extractFrom_canonical hgp, extractBraces_canonical hgp]
    simp only [Option.getD_some]
    rw [splitTrimFilter_joinComma ns hgp.2.2.2]
    exact ih _ (fun q hq => hgood q (List.mem_cons_of_mem _ hq))

theorem regexExtractedPairs_canonical (imps : List (Text × List Text))
    (hgood : ∀ p ∈ imps, goodImport p) :
    regexExtractedPairs (renderFile (imps.map canonImportStmt))
      = imps.flatMap (fun p => p.2.map (fun n => (p.1, n))) := by
  unfold regexExtractedPairs scanImports
  rw [scanGo_canonical imps _ hgood (le_refl _)]
  induction imps with
  | nil => rfl
  | cons p imps ih =>
    have hgp : goodImport p := hgood p (List.mem_cons_self _ _)
    simp only [List.map_cons, List.flatMap_cons]
    rw [ih (fun q hq => hgood q (List.mem_cons_of_mem _ hq))]
    congr 1
    exact congrArg (List.map _) (splitTrimFilter_joinComma p.2 hgp.2.2.2)

theorem spliceRemainder_canonical (imps : List (Text × List Text))
    (hgood : ∀ p ∈ imps, goodImport p)
    (hnd : (imps.map renderImport).Nodup) :
    spliceRemainder (renderFile (imps.map canonImportStmt)) = [] := by
  have hmapnd : (imps.map (fun p => renderImport p ++ ['\n'])).Nodup := by
    have heq : imps.map (fun p => renderImport p ++ ['\n'])
        = (imps.map renderImport).map (fun t => t ++ ['\n']) := by
      rw [List.map_map]
      rfl
    rw [heq]
    exact hnd.map (fun a b h => List.append_cancel_right h)
  have hscan : (scanImports (renderFile (imps.map canonImportStmt))).map
      (fun x => x.1) = imps.map (fun p => renderImport p ++ ['\n']) := by
    unfold scanImports
    rw [scanGo_canonical imps _ hgood (le_refl _), List.map_map]
    rfl
  unfold spliceRemainder nonImportRemainder
  rw [hscan, dedupKeep_of_nodup hmapnd]
  have hflat : renderFile (imps.map canonImportStmt)
      = (imps.map (fun p => renderImport p ++ ['\n'])).flatten := by
    unfold renderFile
    rw [List.flatMap_def, List.map_map]
    rfl
  rw [hflat, foldl_replaceFirst_flatten]
  rfl

/-- Claim C3 amended: the two implementations of `injectFilesContent` agree
on every injected file whose statements are pairwise distinct import
declarations of the canonical named form `import { n1, ..., nk } from 'm';`
(non-empty quote-free module, non-empty names free of whitespace, commas,
braces and quotes): both add exactly the same deduplicated import pairs and
no statements, producing identical app-router files.  On other files they
disagree (see the counterexample). -/
theorem c3_amended (imps : List (Text × List Text)) (rf : RouterFile)
    (hgood : ∀ p ∈ imps, goodImport p)
    (hnd : (imps.map renderImport).Nodup) :
    regexInjectFile (renderFile (imps.map canonImportStmt)) rf
      = astInjectFile (imps.map canonImportStmt) rf := by
  unfold astInjectFile
  rw [astInjectFile_canonical imps (rf, seedExisting rf.imports) hgood]
  simp only [regexInjectFile]
  rw [regexExtractedPairs_canonical imps hgood,
    spliceRemainder_canonical imps hgood hnd]
  simp

/-- Witness for the amended C3 at a concrete two-statement canonical file. -/
theorem c3_amended_witness :
    regexInjectFile (renderFile ([(("m").toList, [("a").toList, ("b").toList]),
        (("m2").toList, [("a").toList])].map canonImportStmt)) emptyRouterFile
      = astInjectFile ([(("m").toList, [("a").toList, ("b").toList]),
        (("m2").toList, [("a").toList])].map canonImportStmt) emptyRouterFile :=
  c3_amended [(("m").toList, [("a").toList, ("b").toList]),
    (("m2").toList, [("a").toList])] emptyRouterFile (by decide) (by decide)

end NT
